import Mathlib

/-!
# Mini blockchain (`blockchain.go`): embedding and verified properties

The Go program is embedded shallowly.

* Go strings are Lean strings; `+` is `++`.
* Go's `int` is modelled by `Int`, and `b.PoW++` wraps at 64 bits (`wrapInt`),
  the width of `int` on 64-bit targets.
* A `float64` is never computed on by the program (it is only handed to
  `json.Marshal`), so it is carried as its 64-bit pattern.
* A `map[string]interface{}` is an optional association list; `none` is the
  nil map of a zero-valued block.
* What the program takes from the standard library and the run-time
  environment without its body being part of the repository is a field of
  `Lib`: the rendering of strings and numbers inside `json.Marshal`,
  `time.Time.String`, `sha256.Sum256`, and the size up to which `strings.Repeat`
  can allocate its result.  Every property is proved for an arbitrary `Lib`.
  The documented structure of `json.Marshal` on a map is modelled: `null` for
  the nil map, the entries by sorted key between braces, and an error (no
  bytes) when a number is NaN or infinite.  `time.Now()` is an explicit
  argument.
* A run-time panic is a value (`Panic`); the unbounded `for` loop of `mine`
  takes a step budget and yields `Run.outOfFuel` when the budget is used up.
-/

namespace MiniBlockchain

/-! ## Run-time outcomes -/

/-- Run-time panics the program can raise. -/
inductive Panic
  | indexOutOfRange
  | negativeRepeatCount
  | allocationFailure
deriving DecidableEq, Repr

/-- Outcome of running code that contains the unbounded mining loop. -/
inductive Run (α : Type)
  | done (a : α)
  | panic (p : Panic)
  | outOfFuel
deriving DecidableEq, Repr

/-! ## Data model -/

/-- A Go `float64`, carried as its IEEE-754 bit pattern. -/
structure Float64 where
  bits : Nat
deriving DecidableEq, Repr

/-- A Go `float64` that is NaN or an infinity: its exponent field is all ones. -/
def Float64.nonFinite (x : Float64) : Bool := decide (x.bits / 2 ^ 52 % 2 ^ 11 = 2047)

/-- A Go `time.Time`: the wall reading, the monotonic or extended reading, and
the location (`loc` names the `*Location`, 0 for nil).  Two values are equal
when all three agree, as with `==` in Go. -/
structure Time where
  wall : Nat
  ext : Int
  loc : Nat
deriving DecidableEq, Repr

/-- Values stored under `interface{}` in a block's payload. -/
inductive Value
  | str (s : String)
  | float (x : Float64)
deriving DecidableEq, Repr

/-- Block represents an individual block in the blockchain. -/
structure Block where
  Data : Option (List (String × Value))
  Hash : String
  PreviousHash : String
  Timestamp : Time
  PoW : Int
deriving DecidableEq, Repr

/-- Blockchain represents a chain of blocks. -/
structure Blockchain where
  GenesisBlock : Block
  Chain : List Block
  Difficulty : Int
deriving DecidableEq, Repr

/-- Standard-library functions called by the program, and the allocation
limit of the environment it runs in. -/
structure Lib where
  /-- The JSON text `json.Marshal` writes for a string (a map key or a string
  value): quoted and escaped. -/
  jsonString : String → String
  /-- The JSON number `json.Marshal` writes for a finite `float64`. -/
  jsonFloat : Float64 → String
  /-- The rendering `Time.String()`. -/
  timeString : Time → String
  /-- The 32 bytes of `sha256.Sum256`; each entry is read modulo 256. -/
  sum256 : String → Fin 32 → Nat
  /-- The largest number of bytes `strings.Repeat` can allocate for its
  result; a longer result makes the call fail. -/
  maxAlloc : Nat
  /-- The run time refuses every allocation above its address space of
  `2 ^ 48` bytes (64-bit targets). -/
  maxAlloc_le : maxAlloc ≤ 2 ^ 48

/-! ## Library functions with a fixed meaning -/

/-- Go's `int` arithmetic wraps at 64 bits (two's complement). -/
def wrapInt (x : Int) : Int := (x + 2 ^ 63) % 2 ^ 64 - 2 ^ 63

/-- Decimal rendering `strconv.Itoa`. -/
def Itoa (n : Int) : String := toString n

/-- Two lower-case hexadecimal digits per byte. -/
def hexBytes : List Nat → List Char
  | [] => []
  | b :: bs => Nat.digitChar (b % 256 / 16) :: Nat.digitChar (b % 256 % 16) :: hexBytes bs

/-- Rendering `fmt.Sprintf("%x", h)` of a `[32]byte`. -/
def Sprintf_x (h : Fin 32 → Nat) : String := String.mk (hexBytes (List.ofFn h))

/-- Function `strings.Repeat` on a non-negative count. -/
def repeatStr (s : String) : Nat → String
  | 0 => ""
  | n + 1 => s ++ repeatStr s n

/-- Function `strings.Repeat`: returns the empty string and `s` for the counts
0 and 1 without allocating, panics on a negative count, and fails when its
result of `len(s) * count` bytes is longer than `maxAlloc`. -/
def Repeat (maxAlloc : Nat) (s : String) (count : Int) : Except Panic String :=
  if count = 0 then .ok ""
  else if count = 1 then .ok s
  else if count < 0 then .error .negativeRepeatCount
  else if s.utf8ByteSize * count.toNat > maxAlloc then .error .allocationFailure
  else .ok (repeatStr s count.toNat)

/-- What `json.Marshal` writes for one value; `none` is the
`UnsupportedValueError` it reports for NaN and the infinities. -/
def jsonValue (L : Lib) : Value → Option String
  | .str s => some (L.jsonString s)
  | .float x => if x.nonFinite then none else some (L.jsonFloat x)

/-- What `json.Marshal` writes for the entries of a map, in the order given;
`none` when a value cannot be written. -/
def jsonEntries (L : Lib) : List (String × Value) → Option (List String)
  | [] => some []
  | kv :: rest =>
    match jsonValue L kv.2, jsonEntries L rest with
    | some e, some es => some ((L.jsonString kv.1 ++ ":" ++ e) :: es)
    | _, _ => none

/-- Order of two keys as `json.Marshal` compares them (`strings.Compare`):
character by character, a proper beginning first. -/
def keyLE : List Char → List Char → Bool
  | [], _ => true
  | _ :: _, [] => false
  | a :: as, b :: bs => decide (a < b) || (decide (a = b) && keyLE as bs)

/-- The entries of a map in the order `json.Marshal` writes them: by key. -/
def sortEntries (kvs : List (String × Value)) : List (String × Value) :=
  kvs.insertionSort (fun a b => keyLE a.1.data b.1.data)

/-- The bytes `json.Marshal` returns for a `map[string]interface{}`: `null` for
the nil map, else the entries by sorted key between braces; no bytes when it
reports an error (the program drops the error). -/
def jsonMarshal (L : Lib) : Option (List (String × Value)) → String
  | none => "null"
  | some kvs =>
    match jsonEntries L (sortEntries kvs) with
    | none => ""
    | some es => "\x7b" ++ ",".intercalate es ++ "\x7d"

/-- Function `strings.HasPrefix`. -/
def HasPrefix (s pre : String) : Bool := pre.data.isPrefixOf s.data

/-- Indexing `xs[i]` of a slice, with Go's bounds check. -/
def index {α : Type} (xs : List α) (i : Int) : Except Panic α :=
  if i < 0 then .error .indexOutOfRange
  else match xs[i.toNat]? with
    | some x => .ok x
    | none => .error .indexOutOfRange

/-! ## The program -/

/-- Method `calculateHash` calculates and returns the hash of a block. -/
def Block.calculateHash (L : Lib) (b : Block) : String :=
  let data := jsonMarshal L b.Data
  let blockData := b.PreviousHash ++ data ++ L.timeString b.Timestamp ++ Itoa b.PoW
  let blockHash := L.sum256 blockData
  Sprintf_x blockHash

/-- Method `mine` mines a block to find a valid hash that satisfies the mining
difficulty.  The budget counts evaluations of the loop condition. -/
def Block.mine (L : Lib) (difficulty : Int) : Nat → Block → Run Block
  | 0, _ => .outOfFuel
  | fuel + 1, b =>
    match Repeat L.maxAlloc "0" difficulty with
    | .error p => .panic p
    | .ok zeros =>
      if HasPrefix b.Hash zeros then .done b
      else
        let b1 := { b with PoW := wrapInt (b.PoW + 1) }
        let b2 := { b1 with Hash := b1.calculateHash L }
        Block.mine L difficulty fuel b2

/-- Function `CreateBlockchain` creates a new blockchain with the specified
mining difficulty; `now` is the value of `time.Now()`. -/
def CreateBlockchain (difficulty : Int) (now : Time) : Blockchain :=
  let genesisBlock : Block :=
    { Data := none, Hash := "0", PreviousHash := "", Timestamp := now, PoW := 0 }
  { GenesisBlock := genesisBlock, Chain := [genesisBlock], Difficulty := difficulty }

/-- Method `IsValidBlock` checks the validity of a specific block in the
blockchain. -/
def Blockchain.IsValidBlock (L : Lib) (bc : Blockchain) (idx : Int) : Except Panic Bool :=
  if idx < 0 ∨ idx ≥ bc.Chain.length then .ok false
  else
    match index bc.Chain idx with
    | .error p => .error p
    | .ok block =>
      match index bc.Chain (idx - 1) with
      | .error p => .error p
      | .ok previousBlock =>
        if block.Hash ≠ block.calculateHash L then .ok false
        else if block.PreviousHash ≠ previousBlock.Hash then .ok false
        else .ok true

/-- The candidate block `AddBlock` builds before mining it. -/
def newBlock (previousBlock : Block) (sender receiver : String) (amount : Float64)
    (now : Time) : Block :=
  { Data := some [("from", .str sender), ("to", .str receiver), ("amount", .float amount)],
    Hash := "",
    PreviousHash := previousBlock.Hash,
    Timestamp := now,
    PoW := 0 }

/-- Method `AddBlock` adds a new block to the blockchain.  The result is the
chain as the call leaves it and the returned error (`none` is `nil`). -/
def Blockchain.AddBlock (L : Lib) (bc : Blockchain) (sender receiver : String)
    (amount : Float64) (now : Time) (fuel : Nat) : Run (Blockchain × Option String) :=
  match index bc.Chain ((bc.Chain.length : Int) - 1) with
  | .error p => .panic p
  | .ok previousBlock =>
    match (newBlock previousBlock sender receiver amount now).mine L bc.Difficulty fuel with
    | .panic p => .panic p
    | .outOfFuel => .outOfFuel
    | .done mined =>
      let bc1 : Blockchain := { bc with Chain := bc.Chain ++ [mined] }
      match bc1.IsValidBlock L ((bc1.Chain.length : Int) - 1) with
      | .error p => .panic p
      | .ok false => .done (bc1, some "invalid block")
      | .ok true => .done (bc1, none)

/-- Loop of `IsValid` over the indices still to visit. -/
def Blockchain.IsValid.loop (L : Lib) (bc : Blockchain) : List Nat → Except Panic Bool
  | [] => .ok true
  | i :: rest =>
    match bc.IsValidBlock L i with
    | .error p => .error p
    | .ok false => .ok false
    | .ok true => Blockchain.IsValid.loop L bc rest

/-- Method `IsValid` checks the validity of the entire blockchain:
`for i := 1; i < len(bc.Chain); i++`. -/
def Blockchain.IsValid (L : Lib) (bc : Blockchain) : Except Panic Bool :=
  Blockchain.IsValid.loop L bc (List.range' 1 (bc.Chain.length - 1))

/-- The body of the loop of `mine`: `b.PoW++; b.Hash = b.calculateHash()`. -/
def Block.mineStep (L : Lib) (b : Block) : Block :=
  let b1 := { b with PoW := wrapInt (b.PoW + 1) }
  { b1 with Hash := b1.calculateHash L }

/-- The text `calculateHash` hands to `sha256.Sum256`. -/
def Block.blockData (L : Lib) (b : Block) : String :=
  b.PreviousHash ++ jsonMarshal L b.Data ++ L.timeString b.Timestamp ++ Itoa b.PoW

/-- The digest function gives the same 32 bytes for two texts. -/
def collide (L : Lib) (s s' : String) : Prop :=
  ∀ i, L.sum256 s i % 256 = L.sum256 s' i % 256

/-- Relation `Appended L bc₀ errs bc`: the chain `bc₀` has become `bc` through
`errs.length` calls of `AddBlock` that returned; `errs` lists what they
returned, the latest call first. -/
inductive Appended (L : Lib) (bc₀ : Blockchain) : List (Option String) → Blockchain → Prop
  | start : Appended L bc₀ [] bc₀
  | call (errs : List (Option String)) (bc bc' : Blockchain) (err : Option String)
      (sender receiver : String) (amount : Float64) (now : Time) (fuel : Nat) :
      Appended L bc₀ errs bc →
      bc.AddBlock L sender receiver amount now fuel = .done (bc', err) →
      Appended L bc₀ (err :: errs) bc'

/-- A string begins with at least `n` characters `0`. -/
def leadingZeros (n : Nat) (s : String) : Prop := List.replicate n '0' <+: s.data

/-! ## A small library instance for evaluation -/

/-- Sum of the character codes of a string. -/
def toyCode (s : String) : Nat := s.data.foldl (fun acc c => acc + c.toNat) 0

/-- A stand-in digest: byte `i` is a fixed mix of the character codes. -/
def toySum (s : String) (i : Fin 32) : Nat := (toyCode s + 27) * 37 + i.val

/-- Library instance used to evaluate the program on concrete inputs. -/
def toyLib : Lib :=
  { jsonString := fun s => "\x22" ++ s ++ "\x22"
    jsonFloat := fun x => toString x.bits
    timeString := fun t => toString t.wall ++ " " ++ toString t.ext ++ " " ++ toString t.loc
    sum256 := toySum
    maxAlloc := 4096
    maxAlloc_le := by decide }

/-- The first block appended in the worked example. -/
def exampleBlock1 : Block :=
  { Data := some [("from", .str "A"), ("to", .str "B"), ("amount", .float ⟨10⟩)],
    Hash := "0405060708090a0b0c0d0e0f101112131415161718191a1b1c1d1e1f20212223",
    PreviousHash := "0",
    Timestamp := ⟨0, 7, 0⟩,
    PoW := 1 }

/-- The second block appended in the worked example. -/
def exampleBlock2 : Block :=
  { Data := some [("from", .str "C"), ("to", .str "D"), ("amount", .float ⟨20⟩)],
    Hash := "08090a0b0c0d0e0f101112131415161718191a1b1c1d1e1f2021222324252627",
    PreviousHash := "0405060708090a0b0c0d0e0f101112131415161718191a1b1c1d1e1f20212223",
    Timestamp := ⟨0, 9, 0⟩,
    PoW := 2 }

/-- The example chain after one append (difficulty 1, created at time 5). -/
def exampleChain1 : Blockchain :=
  { CreateBlockchain 1 ⟨0, 5, 0⟩ with Chain := (CreateBlockchain 1 ⟨0, 5, 0⟩).Chain ++ [exampleBlock1] }

/-- The example chain after two appends. -/
def exampleChain2 : Blockchain :=
  { exampleChain1 with Chain := exampleChain1.Chain ++ [exampleBlock2] }

/-- The candidate block of the first append of the worked example. -/
def exampleCandidate : Block :=
  newBlock (CreateBlockchain 1 ⟨0, 5, 0⟩).GenesisBlock "A" "B" ⟨10⟩ ⟨0, 7, 0⟩


/-! ## Tampering and further inputs -/

/-- Overwrite of `bc.Chain[i]` by a block, as a direct assignment does. -/
def Blockchain.setBlock (bc : Blockchain) (i : Nat) (b : Block) : Blockchain :=
  { bc with Chain := bc.Chain.set i b }

/-- The `float64` value `+Inf`. -/
def posInf : Float64 := ⟨0x7FF0000000000000⟩

/-- A block whose payload carries the amount `+Inf` and whose stored hash is
the one `calculateHash` computes for it. -/
def infBlock (L : Lib) : Block :=
  let b : Block :=
    { Data := some [("from", .str "A"), ("to", .str "B"), ("amount", .float posInf)],
      Hash := "",
      PreviousHash := "0",
      Timestamp := ⟨0, 7, 0⟩,
      PoW := 1 }
  { b with Hash := b.calculateHash L }

/-- The chain of a genesis block followed by `infBlock`. -/
def infChain (L : Lib) : Blockchain :=
  { CreateBlockchain 1 ⟨0, 5, 0⟩ with Chain := (CreateBlockchain 1 ⟨0, 5, 0⟩).Chain ++ [infBlock L] }

/-- A payload different from the one of `infBlock`. -/
def infTampered : Option (List (String × Value)) :=
  some [("from", .str "X"), ("to", .str "Y"), ("amount", .float posInf)]

/-- A block whose counter is the largest `int` and whose hash is not set. -/
def overflowBlock : Block :=
  { Data := none, Hash := "", PreviousHash := "b", Timestamp := ⟨0, 7, 0⟩, PoW := 2 ^ 63 - 1 }

/-- The zero value `Blockchain{}`. -/
def zeroChain : Blockchain :=
  { GenesisBlock := { Data := none, Hash := "", PreviousHash := "", Timestamp := ⟨0, 0, 0⟩, PoW := 0 },
    Chain := [],
    Difficulty := 0 }

/-- A block that was never mined: its stored hash is the digest at counter 0. -/
def unminedBlock (L : Lib) : Block :=
  let b : Block :=
    { Data := none, Hash := "", PreviousHash := "0", Timestamp := ⟨0, 7, 0⟩, PoW := 0 }
  { b with Hash := b.calculateHash L }

/-- A genesis block followed by `unminedBlock`, under difficulty 65. -/
def unminedChain (L : Lib) : Blockchain :=
  { CreateBlockchain 65 ⟨0, 5, 0⟩ with Chain := (CreateBlockchain 65 ⟨0, 5, 0⟩).Chain ++ [unminedBlock L] }

/-! ## Indexing -/

theorem index_natCast {α : Type} (xs : List α) (i : Nat) (h : i < xs.length) :
    index xs (i : Int) = .ok xs[i] := by
  have h0 : ¬ ((i : Int) < 0) := by omega
  simp [index, h0, List.getElem?_eq_getElem h]

theorem index_pred {α : Type} (xs : List α) (i : Nat) (h1 : 1 ≤ i) (h : i < xs.length) :
    index xs ((i : Int) - 1) = .ok (xs.get ⟨i - 1, by omega⟩) := by
  have e : ((i : Int) - 1) = ((i - 1 : Nat) : Int) := by omega
  rw [e, index_natCast xs (i - 1) (by omega)]
  rfl

theorem index_last {α : Type} (xs : List α) (h : xs ≠ []) :
    index xs ((xs.length : Int) - 1) = .ok (xs.getLast h) := by
  have hl : 1 ≤ xs.length := List.length_pos.mpr h
  have e : ((xs.length : Int) - 1) = ((xs.length - 1 : Nat) : Int) := by omega
  rw [e, index_natCast xs (xs.length - 1) (by omega), List.getLast_eq_getElem]

theorem index_nil {α : Type} (i : Int) : index ([] : List α) i = .error .indexOutOfRange := by
  unfold index
  split <;> simp

/-! ## Hashing -/

theorem hexBytes_length (bs : List Nat) : (hexBytes bs).length = 2 * bs.length := by
  induction bs with
  | nil => rfl
  | cons b bs ih => simp [hexBytes, ih]; omega

theorem Sprintf_x_length (h : Fin 32 → Nat) : (Sprintf_x h).data.length = 64 := by
  simp [Sprintf_x, hexBytes_length]

theorem calculateHash_length (L : Lib) (b : Block) : (b.calculateHash L).data.length = 64 := by
  exact Sprintf_x_length _

theorem calculateHash_congr (L : Lib) (b c : Block) (h1 : b.Data = c.Data)
    (h2 : b.PreviousHash = c.PreviousHash) (h3 : b.Timestamp = c.Timestamp)
    (h4 : b.PoW = c.PoW) : b.calculateHash L = c.calculateHash L := by
  simp [Block.calculateHash, h1, h2, h3, h4]

theorem repeatStr_zero_data (n : Nat) : (repeatStr "0" n).data = List.replicate n '0' := by
  induction n with
  | zero => rfl
  | succ n ih => simp [repeatStr, String.data_append, ih, List.replicate_succ]

theorem utf8ByteSize_zero : "0".utf8ByteSize = 1 := by decide

theorem Repeat_zeros_ok (m : Nat) (d : Int) (hd : 0 ≤ d) (h : d ≤ 1 ∨ d ≤ m) :
    Repeat m "0" d = .ok (repeatStr "0" d.toNat) := by
  unfold Repeat
  by_cases h0 : d = 0
  · subst h0; rfl
  · by_cases h1 : d = 1
    · subst h1; rfl
    · have h2 : ¬ d < 0 := by omega
      have h3 : ¬ ("0".utf8ByteSize * d.toNat > m) := by
        rw [utf8ByteSize_zero]; omega
      rw [if_neg h0, if_neg h1, if_neg h2, if_neg h3]

theorem Repeat_neg (m : Nat) (d : Int) (h : d < 0) :
    Repeat m "0" d = .error .negativeRepeatCount := by
  unfold Repeat
  rw [if_neg (by omega), if_neg (by omega), if_pos h]

theorem Repeat_zeros_fail (m : Nat) (d : Int) (h1 : 1 < d) (h2 : (m : Int) < d) :
    Repeat m "0" d = .error .allocationFailure := by
  unfold Repeat
  have h3 : "0".utf8ByteSize * d.toNat > m := by
    rw [utf8ByteSize_zero]; omega
  rw [if_neg (by omega), if_neg (by omega), if_neg (by omega), if_pos h3]

theorem Repeat_zeros_cases (m : Nat) (d : Int) :
    (0 ≤ d ∧ (d ≤ 1 ∨ d ≤ m) ∧ Repeat m "0" d = .ok (repeatStr "0" d.toNat)) ∨
      (∃ p, Repeat m "0" d = .error p) := by
  by_cases hd : d < 0
  · exact Or.inr ⟨_, Repeat_neg m d hd⟩
  · by_cases h : d ≤ 1 ∨ d ≤ m
    · exact Or.inl ⟨by omega, h, Repeat_zeros_ok m d (by omega) h⟩
    · exact Or.inr ⟨_, Repeat_zeros_fail m d (by omega) (by omega)⟩

theorem HasPrefix_zeros (s : String) (n : Nat) :
    HasPrefix s (repeatStr "0" n) = true ↔ leadingZeros n s := by
  simp [HasPrefix, leadingZeros, repeatStr_zero_data]

theorem leadingZeros_le_length (n : Nat) (s : String) (h : leadingZeros n s) :
    n ≤ s.data.length := by
  have := List.IsPrefix.length_le h
  simpa using this

theorem wrapInt_succ (x : Int) (n : Nat) : wrapInt (wrapInt (x + n) + 1) = wrapInt (x + (n + 1 : Nat)) := by
  simp only [wrapInt]
  norm_num
  omega


/-! ## Mining -/

theorem mine_succ (L : Lib) (d : Int)
    (hr : Repeat L.maxAlloc "0" d = .ok (repeatStr "0" d.toNat)) (fuel : Nat) (b : Block) :
    b.mine L d (fuel + 1) =
      if HasPrefix b.Hash (repeatStr "0" d.toNat) then .done b
      else (b.mineStep L).mine L d fuel := by
  rw [Block.mine, hr]
  rfl

theorem mine_fail (L : Lib) (d : Int) (p : Panic)
    (hr : Repeat L.maxAlloc "0" d = .error p) (fuel : Nat) (b : Block) :
    b.mine L d (fuel + 1) = .panic p := by
  rw [Block.mine, hr]

theorem mine_neg (L : Lib) (d : Int) (hd : d < 0) (fuel : Nat) (b : Block) :
    b.mine L d (fuel + 1) = .panic .negativeRepeatCount :=
  mine_fail L d _ (Repeat_neg _ d hd) fuel b

/-- A run of `mine` that returns has built its target of `d` zeros. -/
theorem mine_target_of_done (L : Lib) (d : Int) (fuel : Nat) (b b' : Block)
    (h : b.mine L d fuel = .done b') :
    0 ≤ d ∧ (d ≤ 1 ∨ d ≤ L.maxAlloc) ∧
      Repeat L.maxAlloc "0" d = .ok (repeatStr "0" d.toNat) := by
  cases fuel with
  | zero => simp [Block.mine] at h
  | succ n =>
    rcases Repeat_zeros_cases L.maxAlloc d with hok | ⟨p, hp⟩
    · exact hok
    · rw [mine_fail L d p hp] at h; simp at h

theorem mine_repeat_of_done (L : Lib) (d : Int) (fuel : Nat) (b b' : Block)
    (h : b.mine L d fuel = .done b') :
    Repeat L.maxAlloc "0" d = .ok (repeatStr "0" d.toNat) :=
  (mine_target_of_done L d fuel b b' h).2.2

theorem mine_nonneg_of_done (L : Lib) (d : Int) (fuel : Nat) (b b' : Block)
    (h : b.mine L d fuel = .done b') : 0 ≤ d :=
  (mine_target_of_done L d fuel b b' h).1

theorem mineStep_hash (L : Lib) (b : Block) :
    (b.mineStep L).Hash = (b.mineStep L).calculateHash L := rfl

/-- What a returning run of `mine` leaves behind. -/
theorem mine_done (L : Lib) (d : Int) (fuel : Nat) (b b' : Block)
    (h : b.mine L d fuel = .done b') :
    leadingZeros d.toNat b'.Hash ∧ b'.Data = b.Data ∧ b'.PreviousHash = b.PreviousHash ∧
      b'.Timestamp = b.Timestamp ∧
      ((b' = b ∧ leadingZeros d.toNat b.Hash) ∨ b'.Hash = b'.calculateHash L) := by
  have hd := mine_repeat_of_done L d fuel b b' h
  induction fuel generalizing b with
  | zero => simp [Block.mine] at h
  | succ n ih =>
    rw [mine_succ L d hd] at h
    by_cases hp : HasPrefix b.Hash (repeatStr "0" d.toNat) = true
    · rw [if_pos hp] at h
      have e : b = b' := by simpa using h
      subst e
      have hz := (HasPrefix_zeros _ _).mp hp
      exact ⟨hz, rfl, rfl, rfl, Or.inl ⟨rfl, hz⟩⟩
    · rw [if_neg hp] at h
      obtain ⟨h1, h2, h3, h4, h5⟩ := ih _ h
      refine ⟨h1, h2, h3, h4, Or.inr ?_⟩
      rcases h5 with ⟨e, _⟩ | e
      · rw [e]; exact mineStep_hash L b
      · exact e

theorem mine_fuel_mono (L : Lib) (d : Int) (fuel : Nat) (b b' : Block)
    (h : b.mine L d fuel = .done b') (k : Nat) : b.mine L d (fuel + k) = .done b' := by
  have hd := mine_repeat_of_done L d fuel b b' h
  induction fuel generalizing b with
  | zero => simp [Block.mine] at h
  | succ n ih =>
    have e : n + 1 + k = (n + k) + 1 := by omega
    rw [e, mine_succ L d hd]
    rw [mine_succ L d hd] at h
    by_cases hp : HasPrefix b.Hash (repeatStr "0" d.toNat) = true
    · rw [if_pos hp] at h ⊢; exact h
    · rw [if_neg hp] at h ⊢; exact ih _ h

/-- State of the block after `n ≥ 1` rounds of the loop body. -/
theorem mineStep_iterate (L : Lib) (b : Block) (n : Nat) :
    (Block.mineStep L)^[n + 1] b =
      { b with PoW := wrapInt (b.PoW + (n + 1 : Nat)),
               Hash := Block.calculateHash L { b with PoW := wrapInt (b.PoW + (n + 1 : Nat)) } } := by
  induction n with
  | zero => simp [Block.mineStep]
  | succ n ih =>
    rw [Function.iterate_succ_apply', ih]
    simp only [Block.mineStep, wrapInt_succ]
    congr 1

theorem mine_of_iterate (L : Lib) (d : Int)
    (hd : Repeat L.maxAlloc "0" d = .ok (repeatStr "0" d.toNat)) (n : Nat) (b : Block)
    (h : leadingZeros d.toNat ((Block.mineStep L)^[n] b).Hash) :
    ∃ fuel b', b.mine L d fuel = .done b' := by
  induction n generalizing b with
  | zero =>
    refine ⟨1, b, ?_⟩
    have h0 : leadingZeros d.toNat b.Hash := h
    rw [mine_succ L d hd, if_pos ((HasPrefix_zeros _ _).mpr h0)]
  | succ n ih =>
    by_cases hp : HasPrefix b.Hash (repeatStr "0" d.toNat) = true
    · exact ⟨1, b, by rw [mine_succ L d hd, if_pos hp]⟩
    · rw [Function.iterate_succ_apply] at h
      obtain ⟨fuel, b', hf⟩ := ih _ h
      exact ⟨fuel + 1, b', by rw [mine_succ L d hd, if_neg hp]; exact hf⟩

theorem iterate_of_mine (L : Lib) (d : Int) (fuel : Nat) (b b' : Block)
    (h : b.mine L d fuel = .done b') :
    ∃ n, n < fuel ∧ b' = (Block.mineStep L)^[n] b ∧ leadingZeros d.toNat b'.Hash ∧
      ∀ k, k < n → ¬ leadingZeros d.toNat ((Block.mineStep L)^[k] b).Hash := by
  have hd := mine_repeat_of_done L d fuel b b' h
  induction fuel generalizing b with
  | zero => simp [Block.mine] at h
  | succ m ih =>
    rw [mine_succ L d hd] at h
    by_cases hp : HasPrefix b.Hash (repeatStr "0" d.toNat) = true
    · rw [if_pos hp] at h
      have e : b = b' := by simpa using h
      subst e
      exact ⟨0, by omega, rfl, (HasPrefix_zeros _ _).mp hp, by intro k hk; omega⟩
    · rw [if_neg hp] at h
      obtain ⟨n, hn, e, hz, hmin⟩ := ih _ h
      refine ⟨n + 1, by omega, ?_, hz, ?_⟩
      · rw [Function.iterate_succ_apply]; exact e
      · intro k hk
        cases k with
        | zero => exact fun hz0 => hp ((HasPrefix_zeros _ _).mpr hz0)
        | succ k => rw [Function.iterate_succ_apply]; exact hmin k (by omega)

/-- No digest has more than 64 characters, so a target above 64 is never met
by a recomputed hash. -/
theorem mine_never (L : Lib) (d : Int) (hd : 64 < d)
    (hr : Repeat L.maxAlloc "0" d = .ok (repeatStr "0" d.toNat)) (fuel : Nat) (b : Block)
    (h : ¬ leadingZeros d.toNat b.Hash) : b.mine L d fuel = .outOfFuel := by
  induction fuel generalizing b with
  | zero => rfl
  | succ n ih =>
    rw [mine_succ L d hr, if_neg (fun hp => h ((HasPrefix_zeros _ _).mp hp))]
    apply ih
    intro hz
    have h1 := leadingZeros_le_length _ _ hz
    rw [mineStep_hash, calculateHash_length] at h1
    omega

/-- Above 64 zeros `mine` does not return, whether it keeps searching or
fails to build its target. -/
theorem mine_not_done (L : Lib) (d : Int) (hd : 64 < d) (fuel : Nat) (b b' : Block)
    (h : ¬ leadingZeros d.toNat b.Hash) : b.mine L d fuel ≠ .done b' := by
  intro hdone
  have hr := mine_repeat_of_done L d fuel b b' hdone
  rw [mine_never L d hd hr fuel b h] at hdone
  simp at hdone


/-! ## Single-block validation -/

theorem IsValidBlock_outside (L : Lib) (bc : Blockchain) (idx : Int)
    (h : idx < 0 ∨ idx ≥ bc.Chain.length) : bc.IsValidBlock L idx = .ok false := by
  simp [Blockchain.IsValidBlock, h]

theorem IsValidBlock_inside (L : Lib) (bc : Blockchain) (i : Nat) (h1 : 1 ≤ i)
    (h2 : i < bc.Chain.length) :
    bc.IsValidBlock L (i : Int) =
      .ok (decide ((bc.Chain.get ⟨i, h2⟩).calculateHash L = (bc.Chain.get ⟨i, h2⟩).Hash ∧
        (bc.Chain.get ⟨i, h2⟩).PreviousHash = (bc.Chain.get ⟨i - 1, by omega⟩).Hash)) := by
  have hg : ¬ ((i : Int) < 0 ∨ (i : Int) ≥ bc.Chain.length) := by omega
  unfold Blockchain.IsValidBlock
  rw [if_neg hg, index_natCast _ i h2, index_pred _ i h1 h2]
  by_cases ha : (bc.Chain.get ⟨i, h2⟩).Hash = (bc.Chain.get ⟨i, h2⟩).calculateHash L
  · by_cases hb : (bc.Chain.get ⟨i, h2⟩).PreviousHash = (bc.Chain.get ⟨i - 1, by omega⟩).Hash
    · simp_all
    · simp_all
  · have ha2 : ¬ ((bc.Chain.get ⟨i, h2⟩).calculateHash L = (bc.Chain.get ⟨i, h2⟩).Hash) :=
      fun e => ha e.symm
    simp_all

theorem IsValidBlock_zero (L : Lib) (bc : Blockchain) (h : bc.Chain ≠ []) :
    bc.IsValidBlock L 0 = .error .indexOutOfRange := by
  have hl : 1 ≤ bc.Chain.length := List.length_pos.mpr h
  have hg : ¬ ((0 : Int) < 0 ∨ (0 : Int) ≥ bc.Chain.length) := by omega
  unfold Blockchain.IsValidBlock
  have e0 := index_natCast bc.Chain 0 (by omega)
  simp only [Nat.cast_zero] at e0
  rw [if_neg hg, e0]
  simp [index]

/-- Validity of a block only looks at the block and its predecessor. -/
theorem IsValidBlock_append (L : Lib) (bc : Blockchain) (nb : Block) (i : Nat) (h1 : 1 ≤ i)
    (h2 : i < bc.Chain.length) :
    Blockchain.IsValidBlock L { bc with Chain := bc.Chain ++ [nb] } (i : Int) =
      bc.IsValidBlock L (i : Int) := by
  have h3 : i < ({ bc with Chain := bc.Chain ++ [nb] } : Blockchain).Chain.length := by
    simp; omega
  rw [IsValidBlock_inside L _ i h1 h3, IsValidBlock_inside L bc i h1 h2]
  simp [List.getElem_append_left, h2, (by omega : i - 1 < bc.Chain.length)]

/-! ## Whole-chain validation -/

theorem IsValid_loop_spec (L : Lib) (bc : Blockchain) (is : List Nat)
    (h : ∀ i ∈ is, 1 ≤ i ∧ i < bc.Chain.length) :
    (∃ r, Blockchain.IsValid.loop L bc is = .ok r) ∧
      (Blockchain.IsValid.loop L bc is = .ok true ↔
        ∀ i ∈ is, bc.IsValidBlock L (i : Int) = .ok true) := by
  induction is with
  | nil => simp [Blockchain.IsValid.loop]
  | cons i rest ih =>
    have hi := h i (List.mem_cons_self _ _)
    obtain ⟨⟨r, hr⟩, hiff⟩ := ih (fun j hj => h j (List.mem_cons_of_mem _ hj))
    obtain ⟨v, hv⟩ : ∃ v, bc.IsValidBlock L (i : Int) = .ok v :=
      ⟨_, IsValidBlock_inside L bc i hi.1 hi.2⟩
    rw [Blockchain.IsValid.loop, hv]
    cases v with
    | false => simp [hv]
    | true =>
      refine ⟨⟨r, by simp [hr]⟩, ?_⟩
      simp only [List.mem_cons, forall_eq_or_imp, hv, true_and]
      exact hiff

theorem IsValid_spec (L : Lib) (bc : Blockchain) :
    (∃ r, bc.IsValid L = .ok r) ∧
      (bc.IsValid L = .ok true ↔
        ∀ i : Nat, 1 ≤ i → i < bc.Chain.length → bc.IsValidBlock L (i : Int) = .ok true) := by
  have hb : ∀ i ∈ List.range' 1 (bc.Chain.length - 1), 1 ≤ i ∧ i < bc.Chain.length := by
    intro i hi
    simp only [List.mem_range'_1] at hi
    omega
  obtain ⟨hr, hiff⟩ := IsValid_loop_spec L bc _ hb
  refine ⟨hr, ?_⟩
  unfold Blockchain.IsValid
  rw [hiff]
  constructor
  · intro h i h1 h2
    exact h i (by simp only [List.mem_range'_1]; omega)
  · intro h i hi
    exact h i (hb i hi).1 (hb i hi).2


/-! ## Appending -/

theorem IsValidBlock_last (L : Lib) (bc : Blockchain) (nb : Block) (hne : bc.Chain ≠ []) :
    Blockchain.IsValidBlock L { bc with Chain := bc.Chain ++ [nb] } (bc.Chain.length : Int) =
      .ok (decide (nb.calculateHash L = nb.Hash ∧
        nb.PreviousHash = (bc.Chain.getLast hne).Hash)) := by
  have hl : 1 ≤ bc.Chain.length := List.length_pos.mpr hne
  have h3 : bc.Chain.length < ({ bc with Chain := bc.Chain ++ [nb] } : Blockchain).Chain.length := by
    simp
  rw [IsValidBlock_inside L _ bc.Chain.length hl h3]
  have e1 : (bc.Chain ++ [nb]).get ⟨bc.Chain.length, by simp⟩ = nb := by simp
  have e2 : (bc.Chain ++ [nb]).get ⟨bc.Chain.length - 1, by simp; omega⟩
      = bc.Chain.getLast hne := by
    simp only [List.get_eq_getElem]
    rw [List.getElem_append_left (by omega : bc.Chain.length - 1 < bc.Chain.length),
      List.getLast_eq_getElem]
  simp only [e1, e2]

/-- Shape of every returning call of `AddBlock`. -/
theorem AddBlock_done (L : Lib) (bc bc' : Blockchain) (sender receiver : String)
    (amount : Float64) (now : Time) (fuel : Nat) (err : Option String)
    (h : bc.AddBlock L sender receiver amount now fuel = .done (bc', err)) :
    ∃ (hne : bc.Chain ≠ []) (mined : Block),
      (newBlock (bc.Chain.getLast hne) sender receiver amount now).mine L bc.Difficulty fuel
        = .done mined ∧
      bc' = { bc with Chain := bc.Chain ++ [mined] } ∧
      bc'.IsValidBlock L (bc.Chain.length : Int) = .ok (decide (err = none)) ∧
      (err = none ∨ err = some "invalid block") := by
  by_cases hne : bc.Chain = []
  · simp [Blockchain.AddBlock, hne, index_nil] at h
  · unfold Blockchain.AddBlock at h
    rw [index_last bc.Chain hne] at h
    simp only at h
    cases hm : (newBlock (bc.Chain.getLast hne) sender receiver amount now).mine L
        bc.Difficulty fuel with
    | panic p => simp [hm] at h
    | outOfFuel => simp [hm] at h
    | done mined =>
      have el : (((bc.Chain ++ [mined]).length : Nat) : Int) - 1 = (bc.Chain.length : Int) := by
        simp
      simp only [hm, el] at h
      rw [IsValidBlock_last L bc mined hne] at h
      refine ⟨hne, mined, hm, ?_⟩
      by_cases hv : (mined.calculateHash L = mined.Hash ∧
          mined.PreviousHash = (bc.Chain.getLast hne).Hash)
      · simp only [hv, and_self, decide_True] at h
        have e : bc' = { bc with Chain := bc.Chain ++ [mined] } ∧ err = none := by
          simpa [eq_comm] using h
        obtain ⟨e1, e2⟩ := e
        subst e1 e2
        refine ⟨rfl, ?_, Or.inl rfl⟩
        rw [IsValidBlock_last L bc mined hne]
        simp [hv]
      · simp only [hv, decide_False] at h
        have e : bc' = { bc with Chain := bc.Chain ++ [mined] } ∧ err = some "invalid block" := by
          simpa [eq_comm] using h
        obtain ⟨e1, e2⟩ := e
        subst e1 e2
        refine ⟨rfl, ?_, Or.inr rfl⟩
        rw [IsValidBlock_last L bc mined hne]
        simp [hv]

/-- What `AddBlock` returns once the candidate block has been mined. -/
theorem AddBlock_of_mined (L : Lib) (bc : Blockchain) (sender receiver : String)
    (amount : Float64) (now : Time) (fuel : Nat) (hne : bc.Chain ≠ []) (mined : Block)
    (hm : (newBlock (bc.Chain.getLast hne) sender receiver amount now).mine L bc.Difficulty fuel
      = .done mined) :
    bc.AddBlock L sender receiver amount now fuel =
      .done ({ bc with Chain := bc.Chain ++ [mined] },
        if mined.calculateHash L = mined.Hash then none else some "invalid block") := by
  unfold Blockchain.AddBlock
  rw [index_last bc.Chain hne]
  have el : (((bc.Chain ++ [mined]).length : Nat) : Int) - 1 = (bc.Chain.length : Int) := by
    simp
  simp only [hm, el]
  rw [IsValidBlock_last L bc mined hne]
  have hp : mined.PreviousHash = (bc.Chain.getLast hne).Hash := (mine_done L _ _ _ _ hm).2.2.1
  by_cases hv : mined.calculateHash L = mined.Hash
  · simp [hv, hp]
  · simp [hv]

theorem not_leadingZeros_empty (n : Nat) (h : 0 < n) : ¬ leadingZeros n "" := by
  intro hz
  have := leadingZeros_le_length _ _ hz
  simp at this
  omega


/-! ## Evaluation of the worked example -/

set_option maxRecDepth 100000 in
theorem exampleCandidate_mined :
    exampleCandidate.mine toyLib 1 8 = .done exampleBlock1 := by decide

set_option maxRecDepth 100000 in
theorem exampleChain1_step :
    (CreateBlockchain 1 ⟨0, 5, 0⟩).AddBlock toyLib "A" "B" ⟨10⟩ ⟨0, 7, 0⟩ 8 = .done (exampleChain1, none) := by
  decide

set_option maxRecDepth 100000 in
theorem exampleChain2_step :
    exampleChain1.AddBlock toyLib "C" "D" ⟨20⟩ ⟨0, 9, 0⟩ 12 = .done (exampleChain2, none) := by
  decide

theorem exampleChain2_appended :
    Appended toyLib (CreateBlockchain 1 ⟨0, 5, 0⟩) [none, none] exampleChain2 :=
  Appended.call [none] exampleChain1 exampleChain2 none "C" "D" ⟨20⟩ ⟨0, 9, 0⟩ 12
    (Appended.call [] (CreateBlockchain 1 ⟨0, 5, 0⟩) exampleChain1 none "A" "B" ⟨10⟩ ⟨0, 7, 0⟩ 8
      Appended.start exampleChain1_step)
    exampleChain2_step


/-! ## Chains built by `AddBlock` -/

/-- A property of each block and its predecessor survives an append when the
new block has it against the old tail. -/
theorem pairs_append (xs : List Block) (nb : Block) (hne : xs ≠ []) (P : Block → Block → Prop)
    (hold : ∀ i (_ : 1 ≤ i) (h2 : i < xs.length),
      P (xs.get ⟨i, h2⟩) (xs.get ⟨i - 1, by omega⟩))
    (hnew : P nb (xs.getLast hne)) :
    ∀ i (_ : 1 ≤ i) (h2 : i < (xs ++ [nb]).length),
      P ((xs ++ [nb]).get ⟨i, h2⟩) ((xs ++ [nb]).get ⟨i - 1, by omega⟩) := by
  intro i h1 h2
  have hl : 1 ≤ xs.length := List.length_pos.mpr hne
  have h2' : i < xs.length + 1 := by simpa using h2
  by_cases hi : i < xs.length
  · have e1 : (xs ++ [nb]).get ⟨i, h2⟩ = xs.get ⟨i, hi⟩ := by
      simp [List.getElem_append_left, hi]
    have e2 : (xs ++ [nb]).get ⟨i - 1, by omega⟩ = xs.get ⟨i - 1, by omega⟩ := by
      simp [List.getElem_append_left, (by omega : i - 1 < xs.length)]
    rw [e1, e2]
    exact hold i h1 hi
  · have hi' : i = xs.length := by omega
    subst hi'
    have e1 : (xs ++ [nb]).get ⟨xs.length, h2⟩ = nb := by simp
    have e2 : (xs ++ [nb]).get ⟨xs.length - 1, by omega⟩ = xs.getLast hne := by
      simp only [List.get_eq_getElem]
      rw [List.getElem_append_left (by omega : xs.length - 1 < xs.length),
        List.getLast_eq_getElem]
    rw [e1, e2]
    exact hnew

theorem Appended_fields (L : Lib) (bc₀ bc : Blockchain) (errs : List (Option String))
    (h : Appended L bc₀ errs bc) :
    bc.GenesisBlock = bc₀.GenesisBlock ∧ bc.Difficulty = bc₀.Difficulty ∧
      bc.Chain.length = bc₀.Chain.length + errs.length ∧
      ∀ i (hi : i < bc₀.Chain.length), bc.Chain[i]? = some (bc₀.Chain.get ⟨i, hi⟩) := by
  induction h with
  | start => exact ⟨rfl, rfl, by simp, fun i hi => by simp [List.getElem?_eq_getElem hi]⟩
  | call errs bc bc' err s r a now fuel _ hcall ih =>
    obtain ⟨hne, mined, _, e, _, _⟩ := AddBlock_done L bc bc' s r a now fuel err hcall
    obtain ⟨h1, h2, h3, h4⟩ := ih
    subst e
    refine ⟨h1, h2, by simp [h3]; omega, ?_⟩
    intro i hi
    have hlt : i < bc.Chain.length := by omega
    rw [← h4 i hi]
    simp [List.getElem?_append_left, hlt]


theorem Appended_links (L : Lib) (bc₀ bc : Blockchain) (errs : List (Option String))
    (h : Appended L bc₀ errs bc)
    (h₀ : ∀ i (_ : 1 ≤ i) (h2 : i < bc₀.Chain.length),
      (bc₀.Chain.get ⟨i, h2⟩).PreviousHash = (bc₀.Chain.get ⟨i - 1, by omega⟩).Hash) :
    ∀ i (_ : 1 ≤ i) (h2 : i < bc.Chain.length),
      (bc.Chain.get ⟨i, h2⟩).PreviousHash = (bc.Chain.get ⟨i - 1, by omega⟩).Hash := by
  induction h with
  | start => exact h₀
  | call errs bc bc' err s r a now fuel _ hcall ih =>
    obtain ⟨hne, mined, hm, e, _, _⟩ := AddBlock_done L bc bc' s r a now fuel err hcall
    subst e
    exact pairs_append bc.Chain mined hne (fun b p => b.PreviousHash = p.Hash) ih
      (mine_done L _ _ _ _ hm).2.2.1

/-! ## Verified claims -/

/-- C1. For every difficulty and every sequence of `AddBlock` calls on the chain
returned by `CreateBlockchain`, if every call returned `nil` then `IsValid` on
the resulting chain returns true. -/
theorem IsValid_after_successful_appends (L : Lib) (d : Int) (t : Time)
    (errs : List (Option String)) (bc : Blockchain)
    (h : Appended L (CreateBlockchain d t) errs bc) (hok : ∀ e ∈ errs, e = none) :
    bc.IsValid L = .ok true := by
  induction h with
  | start =>
    rw [(IsValid_spec L _).2]
    intro i h1 h2
    simp [CreateBlockchain] at h2
    omega
  | call errs bc bc' err s r a now fuel _ hcall ih =>
    have herr : err = none := hok err (List.mem_cons_self _ _)
    have hprev := ih (fun e he => hok e (List.mem_cons_of_mem _ he))
    obtain ⟨hne, mined, _, e, hv, _⟩ := AddBlock_done L bc bc' s r a now fuel err hcall
    rw [(IsValid_spec L bc).2] at hprev
    rw [(IsValid_spec L bc').2]
    intro i h1 h2
    subst e
    have h2' : i < bc.Chain.length + 1 := by simpa using h2
    by_cases hi : i < bc.Chain.length
    · rw [IsValidBlock_append L bc mined i h1 hi]
      exact hprev i h1 hi
    · have hi' : i = bc.Chain.length := by omega
      rw [hi', hv]
      simp [herr]

/-- C1 at a concrete input: the example chain after two successful appends. -/
theorem IsValid_after_successful_appends_witness :
    Appended toyLib (CreateBlockchain 1 ⟨0, 5, 0⟩) [none, none] exampleChain2 ∧
      (∀ e ∈ [none, none], e = (none : Option String)) ∧
      exampleChain2.IsValid toyLib = .ok true :=
  ⟨exampleChain2_appended, by simp,
    IsValid_after_successful_appends toyLib 1 ⟨0, 5, 0⟩ [none, none] exampleChain2
      exampleChain2_appended (by simp)⟩

/-- C2. `IsValidBlock` returns false for a negative index and for an index
at or beyond the number of blocks, but for index 0 on a chain that has a block
it passes the guard and panics on the read of `Chain[-1]` instead of returning
false; so it does on the chain `CreateBlockchain` returns. -/
theorem IsValidBlock_index_zero_panics (L : Lib) (bc : Blockchain) (idx : Int) (d : Int)
    (t : Time) :
    ((idx < 0 ∨ idx ≥ bc.Chain.length) → bc.IsValidBlock L idx = .ok false) ∧
      (bc.Chain ≠ [] → bc.IsValidBlock L 0 = .error .indexOutOfRange) ∧
      (CreateBlockchain d t).IsValidBlock L 0 = .error .indexOutOfRange :=
  ⟨IsValidBlock_outside L bc idx, IsValidBlock_zero L bc,
    IsValidBlock_zero L _ (by simp [CreateBlockchain])⟩

/-- C3. For every chain and index `i` with `1 ≤ i < len(Chain)`, `IsValidBlock(i)`
returns, and returns true exactly when the recomputed hash of `Chain[i]` equals
its stored hash and its `PreviousHash` equals the stored hash of `Chain[i-1]`. -/
theorem IsValidBlock_iff (L : Lib) (bc : Blockchain) (i : Nat) (h1 : 1 ≤ i)
    (h2 : i < bc.Chain.length) :
    (∃ r, bc.IsValidBlock L (i : Int) = .ok r) ∧
      (bc.IsValidBlock L (i : Int) = .ok true ↔
        ((bc.Chain.get ⟨i, h2⟩).calculateHash L = (bc.Chain.get ⟨i, h2⟩).Hash ∧
          (bc.Chain.get ⟨i, h2⟩).PreviousHash = (bc.Chain.get ⟨i - 1, by omega⟩).Hash)) := by
  rw [IsValidBlock_inside L bc i h1 h2]
  exact ⟨⟨_, rfl⟩, by simp⟩

/-- C3 at a concrete input: block 2 of the example chain. -/
theorem IsValidBlock_iff_witness :
    1 ≤ 2 ∧ ∃ h2 : 2 < exampleChain2.Chain.length,
      (∃ r, exampleChain2.IsValidBlock toyLib ((2 : Nat) : Int) = .ok r) ∧
      (exampleChain2.IsValidBlock toyLib ((2 : Nat) : Int) = .ok true ↔
        ((exampleChain2.Chain.get ⟨2, h2⟩).calculateHash toyLib
            = (exampleChain2.Chain.get ⟨2, h2⟩).Hash ∧
          (exampleChain2.Chain.get ⟨2, h2⟩).PreviousHash
            = (exampleChain2.Chain.get ⟨2 - 1, by omega⟩).Hash)) :=
  ⟨by decide, by decide, IsValidBlock_iff toyLib exampleChain2 2 (by decide) (by decide)⟩

/-- C4. `IsValid` returns, and returns true exactly when `IsValidBlock(i)` is
true for every `i` from 1 to `len(Chain)-1`; it returns true for every chain
of one block, and so for the chain `CreateBlockchain` returns. -/
theorem IsValid_iff (L : Lib) (bc : Blockchain) (d : Int) (t : Time) :
    (∃ r, bc.IsValid L = .ok r) ∧
      (bc.IsValid L = .ok true ↔
        ∀ i : Nat, 1 ≤ i → i ≤ bc.Chain.length - 1 →
          bc.IsValidBlock L (i : Int) = .ok true) ∧
      (bc.Chain.length = 1 → bc.IsValid L = .ok true) ∧
      (CreateBlockchain d t).IsValid L = .ok true := by
  refine ⟨(IsValid_spec L bc).1, ?_, ?_, ?_⟩
  · rw [(IsValid_spec L bc).2]
    constructor
    · intro h i h1 h3; exact h i h1 (by omega)
    · intro h i h1 h3; exact h i h1 (by omega)
  · intro hl
    rw [(IsValid_spec L bc).2]
    intro i h1 h2
    omega
  · rw [(IsValid_spec L _).2]
    intro i h1 h2
    simp [CreateBlockchain] at h2
    omega


/-- C5. On a chain with a block and a positive difficulty, whenever mining of
the candidate block terminates, `AddBlock` returns `nil` (never the
"invalid block" error), leaving the mined block at the end of the chain. -/
theorem AddBlock_no_error (L : Lib) (bc : Blockchain) (sender receiver : String)
    (amount : Float64) (now : Time) (fuel : Nat) (hne : bc.Chain ≠ [])
    (hd : 0 < bc.Difficulty) (mined : Block)
    (hm : (newBlock (bc.Chain.getLast hne) sender receiver amount now).mine L bc.Difficulty fuel
      = .done mined) :
    bc.AddBlock L sender receiver amount now fuel =
      .done ({ bc with Chain := bc.Chain ++ [mined] }, none) := by
  rw [AddBlock_of_mined L bc sender receiver amount now fuel hne mined hm]
  obtain ⟨_, _, _, _, h5⟩ := mine_done L _ _ _ _ hm
  rcases h5 with ⟨_, hz⟩ | e
  · exact absurd hz (not_leadingZeros_empty _ (by omega))
  · rw [if_pos e.symm]

/-- C5 at a concrete input: the first append of the worked example. -/
theorem AddBlock_no_error_witness :
    ∃ hne : (CreateBlockchain 1 ⟨0, 5, 0⟩).Chain ≠ [],
      0 < (CreateBlockchain 1 ⟨0, 5, 0⟩).Difficulty ∧
      (newBlock ((CreateBlockchain 1 ⟨0, 5, 0⟩).Chain.getLast hne) "A" "B" ⟨10⟩ ⟨0, 7, 0⟩).mine toyLib
        (CreateBlockchain 1 ⟨0, 5, 0⟩).Difficulty 8 = .done exampleBlock1 ∧
      (CreateBlockchain 1 ⟨0, 5, 0⟩).AddBlock toyLib "A" "B" ⟨10⟩ ⟨0, 7, 0⟩ 8 =
        .done ({ CreateBlockchain 1 ⟨0, 5, 0⟩ with
          Chain := (CreateBlockchain 1 ⟨0, 5, 0⟩).Chain ++ [exampleBlock1] }, none) :=
  ⟨by simp [CreateBlockchain], by decide, exampleCandidate_mined,
    AddBlock_no_error toyLib (CreateBlockchain 1 ⟨0, 5, 0⟩) "A" "B" ⟨10⟩ ⟨0, 7, 0⟩ 8
      (by simp [CreateBlockchain]) (by decide) exampleBlock1 exampleCandidate_mined⟩

/-- C6. Every call of `AddBlock` that returns, with `nil` or with an error,
leaves the block list as it was with exactly one block added at the end
(every earlier block unchanged at its index), and leaves `Difficulty` and
`GenesisBlock` unchanged. -/
theorem AddBlock_frame (L : Lib) (bc bc' : Blockchain) (sender receiver : String)
    (amount : Float64) (now : Time) (fuel : Nat) (err : Option String)
    (h : bc.AddBlock L sender receiver amount now fuel = .done (bc', err)) :
    (∃ nb, bc'.Chain = bc.Chain ++ [nb]) ∧
      bc'.Chain.length = bc.Chain.length + 1 ∧
      (∀ i (hi : i < bc.Chain.length), bc'.Chain[i]? = some (bc.Chain.get ⟨i, hi⟩)) ∧
      bc'.Difficulty = bc.Difficulty ∧ bc'.GenesisBlock = bc.GenesisBlock := by
  obtain ⟨_, mined, _, e, _, _⟩ := AddBlock_done L bc bc' sender receiver amount now fuel err h
  subst e
  refine ⟨⟨mined, rfl⟩, by simp, ?_, rfl, rfl⟩
  intro i hi
  simp [List.getElem?_append_left, hi, List.getElem?_eq_getElem hi]

/-- C6 at a concrete input: the second append of the worked example. -/
theorem AddBlock_frame_witness :
    exampleChain1.AddBlock toyLib "C" "D" ⟨20⟩ ⟨0, 9, 0⟩ 12 = .done (exampleChain2, none) ∧
      ((∃ nb, exampleChain2.Chain = exampleChain1.Chain ++ [nb]) ∧
        exampleChain2.Chain.length = exampleChain1.Chain.length + 1 ∧
        (∀ i (hi : i < exampleChain1.Chain.length),
          exampleChain2.Chain[i]? = some (exampleChain1.Chain.get ⟨i, hi⟩)) ∧
        exampleChain2.Difficulty = exampleChain1.Difficulty ∧
        exampleChain2.GenesisBlock = exampleChain1.GenesisBlock) :=
  ⟨exampleChain2_step,
    AddBlock_frame toyLib exampleChain1 exampleChain2 "C" "D" ⟨20⟩ ⟨0, 9, 0⟩ 12 none
      exampleChain2_step⟩

/-- C7. Chain linkage: for every chain reached from `CreateBlockchain` by
calls of `AddBlock` that returned, `Chain[0]` is the genesis block, the number
of blocks is one more than the number of calls, and for every `i ≥ 1` the
`PreviousHash` of `Chain[i]` is the stored hash of `Chain[i-1]`. -/
theorem Appended_linkage (L : Lib) (d : Int) (t : Time) (errs : List (Option String))
    (bc : Blockchain) (h : Appended L (CreateBlockchain d t) errs bc) :
    bc.Chain[0]? = some bc.GenesisBlock ∧
      bc.Chain.length = errs.length + 1 ∧
      ∀ i (_ : 1 ≤ i) (h2 : i < bc.Chain.length),
        (bc.Chain.get ⟨i, h2⟩).PreviousHash = (bc.Chain.get ⟨i - 1, by omega⟩).Hash := by
  obtain ⟨hg, _, hlen, h0⟩ := Appended_fields L _ bc errs h
  refine ⟨?_, ?_, ?_⟩
  · rw [h0 0 (by simp [CreateBlockchain]), hg]
    rfl
  · rw [hlen]
    simp [CreateBlockchain]
    omega
  · exact Appended_links L _ bc errs h (by
      intro i h1 h2
      simp [CreateBlockchain] at h2
      omega)

/-- C7 at a concrete input: the example chain after two appends. -/
theorem Appended_linkage_witness :
    Appended toyLib (CreateBlockchain 1 ⟨0, 5, 0⟩) [none, none] exampleChain2 ∧
      (exampleChain2.Chain[0]? = some exampleChain2.GenesisBlock ∧
        exampleChain2.Chain.length = [none, (none : Option String)].length + 1 ∧
        ∀ i (_ : 1 ≤ i) (h2 : i < exampleChain2.Chain.length),
          (exampleChain2.Chain.get ⟨i, h2⟩).PreviousHash
            = (exampleChain2.Chain.get ⟨i - 1, by omega⟩).Hash) :=
  ⟨exampleChain2_appended,
    Appended_linkage toyLib 1 ⟨0, 5, 0⟩ [none, none] exampleChain2 exampleChain2_appended⟩

/-- C8. Proof of work: for every chain reached from `CreateBlockchain(d)`,
`d` positive, by calls of `AddBlock` that returned, every block at index
`i ≥ 1` stores the hash `calculateHash` computes from its fields, and that
hash begins with at least `d` characters `0`. -/
theorem Appended_proof_of_work (L : Lib) (d : Int) (hd : 0 < d) (t : Time)
    (errs : List (Option String)) (bc : Blockchain)
    (h : Appended L (CreateBlockchain d t) errs bc) :
    ∀ i (_ : 1 ≤ i) (h2 : i < bc.Chain.length),
      (bc.Chain.get ⟨i, h2⟩).Hash = (bc.Chain.get ⟨i, h2⟩).calculateHash L ∧
        leadingZeros d.toNat (bc.Chain.get ⟨i, h2⟩).Hash := by
  have hdiff := (Appended_fields L _ bc errs h).2.1
  induction h with
  | start =>
    intro i h1 h2
    simp [CreateBlockchain] at h2
    omega
  | call errs bc bc' err s r a now fuel hprev hcall ih =>
    obtain ⟨hne, mined, hm, e, _, _⟩ := AddBlock_done L bc bc' s r a now fuel err hcall
    subst e
    have hdb : bc.Difficulty = d := (Appended_fields L _ bc errs hprev).2.1
    rw [hdb] at hm
    obtain ⟨hz, _, _, _, h5⟩ := mine_done L _ _ _ _ hm
    have hnew : mined.Hash = mined.calculateHash L ∧ leadingZeros d.toNat mined.Hash := by
      refine ⟨?_, hz⟩
      rcases h5 with ⟨_, hz0⟩ | e
      · exact absurd hz0 (not_leadingZeros_empty _ (by omega))
      · exact e
    exact pairs_append bc.Chain mined hne
      (fun b _ => b.Hash = b.calculateHash L ∧ leadingZeros d.toNat b.Hash) (ih hdb) hnew

/-- C8 at a concrete input: the example chain after two appends. -/
theorem Appended_proof_of_work_witness :
    (0 : Int) < 1 ∧ Appended toyLib (CreateBlockchain 1 ⟨0, 5, 0⟩) [none, none] exampleChain2 ∧
      ∀ i (_ : 1 ≤ i) (h2 : i < exampleChain2.Chain.length),
        (exampleChain2.Chain.get ⟨i, h2⟩).Hash
            = (exampleChain2.Chain.get ⟨i, h2⟩).calculateHash toyLib ∧
          leadingZeros (1 : Int).toNat (exampleChain2.Chain.get ⟨i, h2⟩).Hash :=
  ⟨by decide, exampleChain2_appended,
    Appended_proof_of_work toyLib 1 (by decide) ⟨0, 5, 0⟩ [none, none] exampleChain2
      exampleChain2_appended⟩

/-- C9. For every block and every difficulty `d ≥ 0`, whenever `mine(d)`
returns, the block's stored hash begins with at least `d` characters `0`. -/
theorem mine_leadingZeros (L : Lib) (d : Int) (hd : 0 ≤ d) (fuel : Nat) (b b' : Block)
    (h : b.mine L d fuel = .done b') :
    List.replicate d.toNat '0' <+: b'.Hash.data ∧ (d : Int) ≤ b'.Hash.data.length := by
  have hz := (mine_done L d fuel b b' h).1
  refine ⟨hz, ?_⟩
  have := leadingZeros_le_length _ _ hz
  omega

/-- C9 at a concrete input: mining the first candidate of the worked example. -/
theorem mine_leadingZeros_witness :
    (0 : Int) ≤ 1 ∧ exampleCandidate.mine toyLib 1 8 = .done exampleBlock1 ∧
      (List.replicate (1 : Int).toNat '0' <+: exampleBlock1.Hash.data ∧
        (1 : Int) ≤ exampleBlock1.Hash.data.length) :=
  ⟨by decide, exampleCandidate_mined,
    mine_leadingZeros toyLib 1 (by decide) 8 exampleCandidate exampleBlock1
      exampleCandidate_mined⟩


/-- C10 fails at difficulty 65: whatever the library functions compute, and
whatever the number of iterations allowed, `mine(65)` does not return on the
candidate block of a first append (its stored hash is empty, and every
recomputed hash has 64 characters). -/
theorem mine_65_never_returns :
    ¬ ∃ (L : Lib) (fuel : Nat) (b' : Block), exampleCandidate.mine L 65 fuel = .done b' := by
  rintro ⟨L, fuel, b', h⟩
  have hz : ¬ leadingZeros (65 : Int).toNat exampleCandidate.Hash :=
    not_leadingZeros_empty _ (by decide)
  exact mine_not_done L 65 (by decide) fuel exampleCandidate b' hz h

/-- C10, amended. For every difficulty `d ≥ 0` and every block, `mine(d)`
returns after finitely many iterations exactly when `strings.Repeat` can build
the target of `d` zeros (`d ≤ 1`, or `d` bytes can be allocated) and the stored
hash already begins with `d` characters `0` or, for some `n ≥ 1`, the digest of
the block with its counter advanced `n` times (wrapping at 64 bits) does.  When
the target cannot be built, as for every `d` above `2 ^ 48`, `mine(d)` fails in
`strings.Repeat` at the first test of the loop.  A digest has 64 characters, so for `d > 64` and a stored
hash that does not begin with `d` zeros `mine(d)` never returns: it searches
without end when the target can be built. -/
theorem mine_terminates_iff (L : Lib) (d : Int) (hd : 0 ≤ d) (b : Block) :
    ((∃ fuel b', b.mine L d fuel = .done b') ↔
      ((d ≤ 1 ∨ d ≤ L.maxAlloc) ∧
        (leadingZeros d.toNat b.Hash ∨
          ∃ n : Nat, 1 ≤ n ∧
            leadingZeros d.toNat
              (Block.calculateHash L { b with PoW := wrapInt (b.PoW + n) })))) ∧
      (¬ (d ≤ 1 ∨ d ≤ L.maxAlloc) →
        ∀ fuel, b.mine L d (fuel + 1) = .panic .allocationFailure) ∧
      (2 ^ 48 < d → ∀ fuel, b.mine L d (fuel + 1) = .panic .allocationFailure) ∧
      (64 < d → ¬ leadingZeros d.toNat b.Hash →
        (∀ fuel b', b.mine L d fuel ≠ .done b') ∧
        (d ≤ L.maxAlloc → ∀ fuel, b.mine L d fuel = .outOfFuel)) := by
  have hmax := L.maxAlloc_le
  refine ⟨⟨?_, ?_⟩, ?_, ?_, ?_⟩
  · rintro ⟨fuel, b', h⟩
    refine ⟨(mine_target_of_done L d fuel b b' h).2.1, ?_⟩
    obtain ⟨n, _, e, hz, _⟩ := iterate_of_mine L d fuel b b' h
    cases n with
    | zero =>
      left
      rw [e] at hz
      exact hz
    | succ m =>
      right
      refine ⟨m + 1, by omega, ?_⟩
      rw [e, mineStep_iterate] at hz
      exact hz
  · rintro ⟨hcan, hz | ⟨n, hn, hz⟩⟩
    · exact mine_of_iterate L d (Repeat_zeros_ok _ d hd hcan) 0 b hz
    · obtain ⟨m, rfl⟩ : ∃ m, n = m + 1 := ⟨n - 1, by omega⟩
      apply mine_of_iterate L d (Repeat_zeros_ok _ d hd hcan) (m + 1) b
      rw [mineStep_iterate]
      exact hz
  · intro hcan fuel
    exact mine_fail L d _ (Repeat_zeros_fail _ d (by omega) (by omega)) fuel b
  · intro hbig fuel
    have h1 : (1 : Int) < d := lt_trans (by norm_num) hbig
    have h2 : (L.maxAlloc : Int) < d := lt_of_le_of_lt (by exact_mod_cast hmax) hbig
    exact mine_fail L d _ (Repeat_zeros_fail _ d h1 h2) fuel b
  · intro h64 hz
    refine ⟨fun fuel b' => mine_not_done L d h64 fuel b b' hz, ?_⟩
    intro hcan fuel
    exact mine_never L d h64 (Repeat_zeros_ok _ d hd (Or.inr hcan)) fuel b hz

/-- C10 (amended) at a concrete input: the first candidate of the worked
example at difficulty 1, which terminates. -/
theorem mine_terminates_iff_witness :
    (0 : Int) ≤ 1 ∧ (∃ fuel b', exampleCandidate.mine toyLib 1 fuel = .done b') ∧
      (((∃ fuel b', exampleCandidate.mine toyLib 1 fuel = .done b') ↔
        (((1 : Int) ≤ 1 ∨ (1 : Int) ≤ toyLib.maxAlloc) ∧
          (leadingZeros (1 : Int).toNat exampleCandidate.Hash ∨
            ∃ n : Nat, 1 ≤ n ∧ leadingZeros (1 : Int).toNat
              (Block.calculateHash toyLib
                { exampleCandidate with PoW := wrapInt (exampleCandidate.PoW + n) })))) ∧
        (¬ ((1 : Int) ≤ 1 ∨ (1 : Int) ≤ toyLib.maxAlloc) →
          ∀ fuel, exampleCandidate.mine toyLib 1 (fuel + 1) = .panic .allocationFailure) ∧
        (2 ^ 48 < (1 : Int) →
          ∀ fuel, exampleCandidate.mine toyLib 1 (fuel + 1) = .panic .allocationFailure) ∧
        (64 < (1 : Int) → ¬ leadingZeros (1 : Int).toNat exampleCandidate.Hash →
          (∀ fuel b', exampleCandidate.mine toyLib 1 fuel ≠ .done b') ∧
          ((1 : Int) ≤ toyLib.maxAlloc →
            ∀ fuel, exampleCandidate.mine toyLib 1 fuel = .outOfFuel))) :=
  ⟨by decide, ⟨8, exampleBlock1, exampleCandidate_mined⟩,
    mine_terminates_iff toyLib 1 (by decide) exampleCandidate⟩

/-! ## Further lemmas on validation -/

theorem IsValid_false_of_block (L : Lib) (bc : Blockchain) (i : Nat) (h1 : 1 ≤ i)
    (h2 : i < bc.Chain.length) (h : bc.IsValidBlock L (i : Int) ≠ .ok true) :
    bc.IsValid L = .ok false := by
  obtain ⟨r, hr⟩ := (IsValid_spec L bc).1
  cases r with
  | false => exact hr
  | true => exact absurd ((IsValid_spec L bc).2.mp hr i h1 h2) h

theorem IsValid_loop_congr (L : Lib) (bc bc' : Blockchain) (is : List Nat)
    (h : ∀ i ∈ is, bc.IsValidBlock L (i : Int) = bc'.IsValidBlock L (i : Int)) :
    Blockchain.IsValid.loop L bc is = Blockchain.IsValid.loop L bc' is := by
  induction is with
  | nil => rfl
  | cons i rest ih =>
    rw [Blockchain.IsValid.loop, Blockchain.IsValid.loop, h i (List.mem_cons_self _ _),
      ih (fun j hj => h j (List.mem_cons_of_mem _ hj))]

theorem IsValid_congr (L : Lib) (bc bc' : Blockchain)
    (hlen : bc.Chain.length = bc'.Chain.length)
    (h : ∀ i : Nat, 1 ≤ i → i < bc.Chain.length →
      bc.IsValidBlock L (i : Int) = bc'.IsValidBlock L (i : Int)) :
    bc.IsValid L = bc'.IsValid L := by
  unfold Blockchain.IsValid
  rw [← hlen]
  apply IsValid_loop_congr
  intro i hi
  simp only [List.mem_range'_1] at hi
  exact h i hi.1 (by omega)

theorem IsValidBlock_chain_congr (L : Lib) (bc bc' : Blockchain) (h : bc.Chain = bc'.Chain)
    (idx : Int) : bc.IsValidBlock L idx = bc'.IsValidBlock L idx := by
  unfold Blockchain.IsValidBlock
  rw [h]

/-- Validity at `i` of a chain whose block `i` has been overwritten. -/
theorem IsValidBlock_setBlock (L : Lib) (bc : Blockchain) (i : Nat) (h1 : 1 ≤ i)
    (h2 : i < bc.Chain.length) (nb : Block) :
    (bc.setBlock i nb).IsValidBlock L (i : Int) =
      .ok (decide (nb.calculateHash L = nb.Hash ∧
        nb.PreviousHash = (bc.Chain.get ⟨i - 1, by omega⟩).Hash)) := by
  have h3 : i < (bc.setBlock i nb).Chain.length := by
    simp [Blockchain.setBlock]; exact h2
  rw [IsValidBlock_inside L _ i h1 h3]
  have e1 : (bc.setBlock i nb).Chain.get ⟨i, h3⟩ = nb := by
    simp [Blockchain.setBlock]
  have e2 : (bc.setBlock i nb).Chain.get ⟨i - 1, by omega⟩ = bc.Chain.get ⟨i - 1, by omega⟩ := by
    simp only [Blockchain.setBlock, List.get_eq_getElem]
    rw [List.getElem_set_ne (by omega)]
  rw [e1, e2]

theorem setBlock_length (bc : Blockchain) (i : Nat) (nb : Block) :
    (bc.setBlock i nb).Chain.length = bc.Chain.length := by
  simp [Blockchain.setBlock]

theorem calculateHash_ne_empty (L : Lib) (b : Block) : b.calculateHash L ≠ "" := by
  intro h
  have := calculateHash_length L b
  rw [h] at this
  simp at this

theorem wrapInt_range (x : Int) : -(2 ^ 63) ≤ wrapInt x ∧ wrapInt x ≤ 2 ^ 63 - 1 := by
  simp only [wrapInt]
  norm_num
  omega

theorem wrapInt_of_range (x : Int) (h1 : -(2 ^ 63) ≤ x) (h2 : x ≤ 2 ^ 63 - 1) :
    wrapInt x = x := by
  simp only [wrapInt]
  norm_num at h1 h2 ⊢
  omega

/-! ## The order of keys and the encoding of a map -/

theorem jsonEntries_nonFinite (L : Lib) (kvs : List (String × Value))
    (h : ∃ k x, (k, Value.float x) ∈ kvs ∧ x.nonFinite = true) : jsonEntries L kvs = none := by
  induction kvs with
  | nil => simp at h
  | cons kv rest ih =>
    obtain ⟨k, x, hmem, hx⟩ := h
    rcases List.mem_cons.mp hmem with e | hin
    · subst e
      simp [jsonEntries, jsonValue, hx]
    · have := ih ⟨k, x, hin, hx⟩
      simp only [jsonEntries, this]
      cases jsonValue L kv.2 <;> rfl

/-- A payload with a NaN or infinite number gets no bytes from `json.Marshal`. -/
theorem jsonMarshal_nonFinite (L : Lib) (kvs : List (String × Value))
    (h : ∃ k x, (k, Value.float x) ∈ kvs ∧ x.nonFinite = true) :
    jsonMarshal L (some kvs) = "" := by
  have hs : ∃ k x, (k, Value.float x) ∈ sortEntries kvs ∧ x.nonFinite = true := by
    obtain ⟨k, x, hmem, hx⟩ := h
    exact ⟨k, x, (List.perm_insertionSort _ kvs).mem_iff.mpr hmem, hx⟩
  simp only [jsonMarshal, jsonEntries_nonFinite L _ hs]

/-! ## The hexadecimal rendering tells digests apart -/

theorem digitChar_inj : ∀ a b : Fin 16, Nat.digitChar a.val = Nat.digitChar b.val → a = b := by
  decide

theorem hexBytes_inj (l l' : List Nat) (hlen : l.length = l'.length)
    (h : hexBytes l = hexBytes l') : l.map (· % 256) = l'.map (· % 256) := by
  induction l generalizing l' with
  | nil =>
    cases l' with
    | nil => rfl
    | cons y ys => simp at hlen
  | cons x xs ih =>
    cases l' with
    | nil => simp at hlen
    | cons y ys =>
      simp only [hexBytes, List.cons.injEq] at h
      obtain ⟨h1, h2, h3⟩ := h
      have e1 := digitChar_inj ⟨x % 256 / 16, by omega⟩ ⟨y % 256 / 16, by omega⟩ h1
      have e2 := digitChar_inj ⟨x % 256 % 16, by omega⟩ ⟨y % 256 % 16, by omega⟩ h2
      have e1' : x % 256 / 16 = y % 256 / 16 := congrArg Fin.val e1
      have e2' : x % 256 % 16 = y % 256 % 16 := congrArg Fin.val e2
      have hx : x % 256 = y % 256 := by omega
      simp only [List.map_cons, hx, ih ys (by simpa using hlen) h3]

theorem Sprintf_x_inj (h h' : Fin 32 → Nat) (e : Sprintf_x h = Sprintf_x h') :
    ∀ i, h i % 256 = h' i % 256 := by
  have e1 : hexBytes (List.ofFn h) = hexBytes (List.ofFn h') :=
    congrArg String.data e
  have e2 := hexBytes_inj _ _ (by simp) e1
  rw [List.map_ofFn, List.map_ofFn] at e2
  intro i
  exact congrFun (List.ofFn_injective e2) i

/-! ## Verified claims, continued -/

/-- C11. For every difficulty `d` and creation time `t`, `CreateBlockchain`
returns a chain whose block list has exactly one element, equal to the
`GenesisBlock` field; that block has the hash "0", no data, an empty
`PreviousHash`, timestamp `t` and counter 0; the chain's difficulty is `d`. -/
theorem CreateBlockchain_spec (d : Int) (t : Time) :
    (CreateBlockchain d t).Chain = [(CreateBlockchain d t).GenesisBlock] ∧
      (CreateBlockchain d t).Chain.length = 1 ∧
      (CreateBlockchain d t).GenesisBlock.Hash = "0" ∧
      (CreateBlockchain d t).GenesisBlock.Data = none ∧
      (CreateBlockchain d t).GenesisBlock.PreviousHash = "" ∧
      (CreateBlockchain d t).GenesisBlock.Timestamp = t ∧
      (CreateBlockchain d t).GenesisBlock.PoW = 0 ∧
      (CreateBlockchain d t).Difficulty = d :=
  ⟨rfl, rfl, rfl, rfl, rfl, rfl, rfl, rfl⟩

/-- C12. Tampering with `PreviousHash` is detected: for every chain and index
`i` with `1 ≤ i < len(Chain)`, overwriting the `PreviousHash` of `Chain[i]` by
a string different from the hash of `Chain[i-1]` (in particular by a string
different from its old value when `IsValidBlock(i)` was true) makes
`IsValidBlock(i)` and `IsValid()` return false. -/
theorem PreviousHash_tampering_detected (L : Lib) (bc : Blockchain) (i : Nat) (h1 : 1 ≤ i)
    (h2 : i < bc.Chain.length) (s : String) :
    (s ≠ (bc.Chain.get ⟨i - 1, by omega⟩).Hash →
      (bc.setBlock i { bc.Chain.get ⟨i, h2⟩ with PreviousHash := s }).IsValidBlock L (i : Int)
          = .ok false ∧
        (bc.setBlock i { bc.Chain.get ⟨i, h2⟩ with PreviousHash := s }).IsValid L = .ok false) ∧
      (bc.IsValidBlock L (i : Int) = .ok true → s ≠ (bc.Chain.get ⟨i, h2⟩).PreviousHash →
        (bc.setBlock i { bc.Chain.get ⟨i, h2⟩ with PreviousHash := s }).IsValidBlock L (i : Int)
            = .ok false ∧
          (bc.setBlock i { bc.Chain.get ⟨i, h2⟩ with PreviousHash := s }).IsValid L
            = .ok false) := by
  have key : s ≠ (bc.Chain.get ⟨i - 1, by omega⟩).Hash →
      (bc.setBlock i { bc.Chain.get ⟨i, h2⟩ with PreviousHash := s }).IsValidBlock L (i : Int)
          = .ok false ∧
        (bc.setBlock i { bc.Chain.get ⟨i, h2⟩ with PreviousHash := s }).IsValid L
          = .ok false := by
    intro hs
    have hv : (bc.setBlock i { bc.Chain.get ⟨i, h2⟩ with PreviousHash := s }).IsValidBlock L
        (i : Int) = .ok false := by
      rw [IsValidBlock_setBlock L bc i h1 h2]
      have hs' : ¬ (s = (bc.Chain.get ⟨i - 1, by omega⟩).Hash) := hs
      simp only [hs', and_false, decide_False]
    refine ⟨hv, IsValid_false_of_block L _ i h1 (by rw [setBlock_length]; exact h2) ?_⟩
    rw [hv]
    simp
  refine ⟨key, ?_⟩
  intro hvalid hs
  apply key
  rw [IsValidBlock_inside L bc i h1 h2] at hvalid
  have hdec := Except.ok.inj hvalid
  have hlink : (bc.Chain.get ⟨i, h2⟩).PreviousHash = (bc.Chain.get ⟨i - 1, by omega⟩).Hash :=
    (of_decide_eq_true hdec).2
  rw [← hlink]
  exact hs

set_option maxRecDepth 100000 in
/-- C12 at a concrete input: block 2 of the example chain gets the previous
hash "00". -/
theorem PreviousHash_tampering_detected_witness :
    1 ≤ 2 ∧ ∃ h2 : 2 < exampleChain2.Chain.length,
      "00" ≠ (exampleChain2.Chain.get ⟨2 - 1, by omega⟩).Hash ∧
      (exampleChain2.setBlock 2
          { exampleChain2.Chain.get ⟨2, h2⟩ with PreviousHash := "00" }).IsValidBlock toyLib
            ((2 : Nat) : Int) = .ok false ∧
      (exampleChain2.setBlock 2
          { exampleChain2.Chain.get ⟨2, h2⟩ with PreviousHash := "00" }).IsValid toyLib
            = .ok false :=
  ⟨by decide, by decide, by decide,
    (PreviousHash_tampering_detected toyLib exampleChain2 2 (by decide) (by decide) "00").1
      (by decide)⟩


theorem calculateHash_eq_iff (L : Lib) (b c : Block) :
    b.calculateHash L = c.calculateHash L ↔ collide L (b.blockData L) (c.blockData L) := by
  constructor
  · intro h
    exact Sprintf_x_inj _ _ h
  · intro h
    have e : hexBytes (List.ofFn (L.sum256 (b.blockData L)))
        = hexBytes (List.ofFn (L.sum256 (c.blockData L))) := by
      have hb : ∀ l : List Nat, hexBytes l = hexBytes (l.map (· % 256)) := by
        intro l
        induction l with
        | nil => rfl
        | cons x xs ih => simp only [hexBytes, List.map_cons, Nat.mod_mod, ← ih]
      rw [hb (List.ofFn (L.sum256 (b.blockData L))), hb (List.ofFn (L.sum256 (c.blockData L))),
        List.map_ofFn, List.map_ofFn]
      congr 2
      funext i
      exact h i
    exact congrArg String.mk e

/-- Blocks that differ only in payloads with different encodings hand
different texts to the digest. -/
theorem blockData_ne (L : Lib) (b : Block) (data : Option (List (String × Value)))
    (h : jsonMarshal L data ≠ jsonMarshal L b.Data) :
    Block.blockData L { b with Data := data } ≠ b.blockData L := by
  intro e
  apply h
  have e' := congrArg String.data e
  simp only [Block.blockData, String.data_append, List.append_assoc] at e'
  have e2 := List.append_cancel_left e'
  have e3 : (jsonMarshal L data).data ++ ((L.timeString b.Timestamp).data ++ (Itoa b.PoW).data)
      = (jsonMarshal L b.Data).data ++ ((L.timeString b.Timestamp).data ++ (Itoa b.PoW).data) := by
    simpa [List.append_assoc] using e2
  exact String.ext (List.append_cancel_right e3)

/-- Where `json.Marshal` encodes the payloads differently and the digest does
not collide on the two texts, overwriting the data of a valid block is
detected by `IsValidBlock` and `IsValid`. -/
theorem Data_tampering_detected (L : Lib) (bc : Blockchain) (i : Nat) (h1 : 1 ≤ i)
    (h2 : i < bc.Chain.length) (hv : bc.IsValidBlock L (i : Int) = .ok true)
    (data : Option (List (String × Value)))
    (henc : jsonMarshal L data ≠ jsonMarshal L (bc.Chain.get ⟨i, h2⟩).Data)
    (hnc : Block.blockData L { bc.Chain.get ⟨i, h2⟩ with Data := data }
        ≠ (bc.Chain.get ⟨i, h2⟩).blockData L →
      ¬ collide L (Block.blockData L { bc.Chain.get ⟨i, h2⟩ with Data := data })
        ((bc.Chain.get ⟨i, h2⟩).blockData L)) :
    (bc.setBlock i { bc.Chain.get ⟨i, h2⟩ with Data := data }).IsValidBlock L (i : Int)
        = .ok false ∧
      (bc.setBlock i { bc.Chain.get ⟨i, h2⟩ with Data := data }).IsValid L = .ok false := by
  rw [IsValidBlock_inside L bc i h1 h2] at hv
  obtain ⟨hhash, _⟩ := of_decide_eq_true (Except.ok.inj hv)
  have hne : ¬ (Block.calculateHash L { bc.Chain.get ⟨i, h2⟩ with Data := data }
      = (bc.Chain.get ⟨i, h2⟩).Hash) := by
    rw [← hhash, calculateHash_eq_iff]
    exact hnc (blockData_ne L _ data henc)
  have hfalse : (bc.setBlock i { bc.Chain.get ⟨i, h2⟩ with Data := data }).IsValidBlock L
      (i : Int) = .ok false := by
    rw [IsValidBlock_setBlock L bc i h1 h2]
    simp only [hne, false_and, decide_False]
  refine ⟨hfalse, IsValid_false_of_block L _ i h1 (by rw [setBlock_length]; exact h2) ?_⟩
  rw [hfalse]
  simp

/-- C13. The claim fails on the code for payloads `json.Marshal` cannot
encode: the error is dropped and the payload does not reach the digest.
Whatever the library computes, the chain of a genesis block and a block with
payload (A, B, +Inf) is valid at index 1; both that payload and the different
payload (X, Y, +Inf) get no bytes from `json.Marshal`; and after the data is
overwritten by the second payload `IsValidBlock(1)` and `IsValid()` still
return true. -/
theorem Data_tampering_undetected (L : Lib) :
    (infChain L).IsValidBlock L ((1 : Nat) : Int) = .ok true ∧
      (infChain L).Chain[1]? = some (infBlock L) ∧
      infTampered ≠ (infBlock L).Data ∧
      jsonMarshal L (infBlock L).Data = "" ∧
      jsonMarshal L infTampered = "" ∧
      ((infChain L).setBlock 1 { infBlock L with Data := infTampered }).IsValidBlock L
        ((1 : Nat) : Int) = .ok true ∧
      ((infChain L).setBlock 1 { infBlock L with Data := infTampered }).IsValid L
        = .ok true := by
  have hinf : posInf.nonFinite = true := by decide
  have m1 : jsonMarshal L
      (some [("from", .str "A"), ("to", .str "B"), ("amount", .float posInf)]) = "" :=
    jsonMarshal_nonFinite L _ ⟨"amount", posInf, by simp, hinf⟩
  have m2 : jsonMarshal L infTampered = "" :=
    jsonMarshal_nonFinite L _ ⟨"amount", posInf, by simp, hinf⟩
  have hlen : 1 < (infChain L).Chain.length := by simp [infChain, CreateBlockchain]
  have hsame : Block.calculateHash L { infBlock L with Data := infTampered } = (infBlock L).Hash := by
    simp only [infBlock, Block.calculateHash, m1, m2]
  have hv1 : (infChain L).IsValidBlock L ((1 : Nat) : Int) = .ok true := by
    rw [IsValidBlock_inside L _ 1 (le_refl 1) hlen]
    simp [infChain, CreateBlockchain, infBlock, Block.calculateHash]
  have hv2 : ((infChain L).setBlock 1 { infBlock L with Data := infTampered }).IsValidBlock L
      ((1 : Nat) : Int) = .ok true := by
    rw [IsValidBlock_setBlock L _ 1 (le_refl 1) hlen, hsame]
    simp [infChain, CreateBlockchain, infBlock]
  refine ⟨hv1, by simp [infChain, CreateBlockchain], by simp [infTampered, infBlock], m1, m2,
    hv2, ?_⟩
  rw [(IsValid_spec L _).2]
  intro i h1 h2
  have h2' : i < 2 := by simpa [Blockchain.setBlock, infChain, CreateBlockchain] using h2
  have hi : i = 1 := by omega
  rw [hi]
  exact hv2

set_option maxRecDepth 100000 in
/-- The detection of a changed payload at a concrete input: block 1 of the
example chain gets the payload with the single entry (from, X). -/
theorem Data_tampering_detected_example :
    ∃ h2 : 1 < exampleChain2.Chain.length,
      (exampleChain2.setBlock 1
          { exampleChain2.Chain.get ⟨1, h2⟩ with Data := some [("from", .str "X")] }).IsValidBlock
            toyLib ((1 : Nat) : Int) = .ok false ∧
      (exampleChain2.setBlock 1
          { exampleChain2.Chain.get ⟨1, h2⟩ with Data := some [("from", .str "X")] }).IsValid
            toyLib = .ok false :=
  ⟨by decide,
    Data_tampering_detected toyLib exampleChain2 1 (by decide) (by decide) (by rfl)
      (some [("from", .str "X")]) (by decide)
      (fun _ hc => absurd (hc 0) (by decide))⟩

/-- C15. Validation does not read the difficulty: two chains with the same
block list get the same result from `IsValidBlock(i)` for every `i` and from
`IsValid()`, whatever their difficulties; and a chain can hold a non-genesis
block whose hash has fewer than `Difficulty` leading zeros while `IsValid()`
returns true. -/
theorem validation_ignores_difficulty (L : Lib) :
    (∀ bc bc' : Blockchain, bc.Chain = bc'.Chain →
      (∀ idx : Int, bc.IsValidBlock L idx = bc'.IsValidBlock L idx) ∧
        bc.IsValid L = bc'.IsValid L) ∧
      (∃ h : 1 < (unminedChain L).Chain.length,
        (unminedChain L).Difficulty = 65 ∧
        ¬ leadingZeros (unminedChain L).Difficulty.toNat ((unminedChain L).Chain.get ⟨1, h⟩).Hash ∧
        (unminedChain L).IsValid L = .ok true) := by
  constructor
  · intro bc bc' h
    refine ⟨IsValidBlock_chain_congr L bc bc' h, ?_⟩
    exact IsValid_congr L bc bc' (by rw [h]) (fun i _ _ => IsValidBlock_chain_congr L bc bc' h i)
  · have hlen : 1 < (unminedChain L).Chain.length := by simp [unminedChain, CreateBlockchain]
    refine ⟨hlen, rfl, ?_, ?_⟩
    · intro hz
      have h1 := leadingZeros_le_length _ _ hz
      have e : ((unminedChain L).Chain.get ⟨1, hlen⟩).Hash
          = Block.calculateHash L
              { Data := none, Hash := "", PreviousHash := "0", Timestamp := ⟨0, 7, 0⟩, PoW := 0 } := rfl
      rw [e, calculateHash_length] at h1
      have e65 : (unminedChain L).Difficulty.toNat = 65 := rfl
      omega
    · rw [(IsValid_spec L _).2]
      intro i h1 h2
      have h2' : i < 2 := by simpa [unminedChain, CreateBlockchain] using h2
      have hi : i = 1 := by omega
      subst hi
      rw [IsValidBlock_inside L _ 1 (le_refl 1) hlen]
      simp [unminedChain, CreateBlockchain, unminedBlock, Block.calculateHash]


set_option maxRecDepth 100000 in
/-- C16 fails when the counter overflows. From the largest `int` the counter
wraps to the smallest one: with the example library `mine(1)` returns with a
counter below the starting one, and with no library at all can `mine(1)`
return with a counter above it. -/
theorem mine_counter_wraps :
    ¬ leadingZeros (1 : Int).toNat overflowBlock.Hash ∧
      overflowBlock.mine toyLib 1 4 = .done ((Block.mineStep toyLib)^[3] overflowBlock) ∧
      ((Block.mineStep toyLib)^[3] overflowBlock).PoW = -(2 ^ 63) + 2 ∧
      ((Block.mineStep toyLib)^[3] overflowBlock).PoW < overflowBlock.PoW ∧
      ¬ ∃ (L : Lib) (fuel : Nat) (b' : Block),
        overflowBlock.mine L 1 fuel = .done b' ∧ overflowBlock.PoW < b'.PoW := by
  refine ⟨not_leadingZeros_empty _ (by decide), by decide, by decide, by decide, ?_⟩
  rintro ⟨L, fuel, b', h, hlt⟩
  obtain ⟨n, _, e, _, _⟩ := iterate_of_mine L 1 fuel overflowBlock b' h
  cases n with
  | zero =>
    rw [e] at hlt
    exact absurd hlt (lt_irrefl _)
  | succ m =>
    rw [e, mineStep_iterate] at hlt
    have hr := (wrapInt_range (overflowBlock.PoW + ((m + 1 : Nat) : Int))).2
    have hp : overflowBlock.PoW = 2 ^ 63 - 1 := rfl
    simp only [hp] at hlt hr
    omega

/-- C16, amended. For every block with starting counter `p` whose stored hash
does not begin with `d` zeros, if `mine(d)` returns, it returns after some
`n ≥ 1` rounds with counter `p + n` wrapped at 64 bits and with the hash
`calculateHash` gives at that counter; none of the counters `p + k` (wrapped),
`1 ≤ k < n`, gives a hash beginning with `d` zeros; data, `PreviousHash` and
timestamp are unchanged; and when `p + n` does not overflow, the final counter
`q = p + n` is above `p` and no `k` with `p < k < q` gives such a hash. -/
theorem mine_linear_search (L : Lib) (d : Int) (fuel : Nat) (b b' : Block)
    (hnz : ¬ leadingZeros d.toNat b.Hash) (h : b.mine L d fuel = .done b') :
    ∃ n : Nat, 1 ≤ n ∧ b'.PoW = wrapInt (b.PoW + n) ∧ b'.Hash = b'.calculateHash L ∧
      (∀ k : Nat, 1 ≤ k → k < n →
        ¬ leadingZeros d.toNat (Block.calculateHash L { b with PoW := wrapInt (b.PoW + k) })) ∧
      b'.Data = b.Data ∧ b'.PreviousHash = b.PreviousHash ∧ b'.Timestamp = b.Timestamp ∧
      (-(2 ^ 63) ≤ b.PoW → b.PoW + n ≤ 2 ^ 63 - 1 →
        b'.PoW = b.PoW + n ∧ b.PoW < b'.PoW ∧
        ∀ k : Int, b.PoW < k → k < b'.PoW →
          ¬ leadingZeros d.toNat (Block.calculateHash L { b with PoW := k })) := by
  obtain ⟨n, _, e, hz, hmin⟩ := iterate_of_mine L d fuel b b' h
  obtain ⟨_, hD, hP, hT, hH⟩ := mine_done L d fuel b b' h
  cases n with
  | zero =>
    rw [e] at hz
    exact absurd hz hnz
  | succ m =>
    have hpow : b'.PoW = wrapInt (b.PoW + ((m + 1 : Nat) : Int)) := by
      rw [e, mineStep_iterate]
    have hhash : b'.Hash = b'.calculateHash L := by
      rcases hH with ⟨e0, hz0⟩ | e1
      · exact absurd hz0 hnz
      · exact e1
    have hbefore : ∀ k : Nat, 1 ≤ k → k < m + 1 →
        ¬ leadingZeros d.toNat
          (Block.calculateHash L { b with PoW := wrapInt (b.PoW + k) }) := by
      intro k hk1 hk2
      obtain ⟨j, rfl⟩ : ∃ j, k = j + 1 := ⟨k - 1, by omega⟩
      have := hmin (j + 1) hk2
      rw [mineStep_iterate] at this
      exact this
    refine ⟨m + 1, by omega, hpow, hhash, hbefore, hD, hP, hT, ?_⟩
    intro hlo hhi
    have hq : b'.PoW = b.PoW + ((m + 1 : Nat) : Int) := by
      rw [hpow]
      exact wrapInt_of_range _ (by omega) hhi
    refine ⟨hq, by omega, ?_⟩
    intro k hk1 hk2
    obtain ⟨j, hj⟩ : ∃ j : Nat, k = b.PoW + (j : Int) := ⟨(k - b.PoW).toNat, by omega⟩
    have hj1 : 1 ≤ j := by omega
    have hj2 : j < m + 1 := by omega
    have := hbefore j hj1 hj2
    rw [wrapInt_of_range _ (by omega) (by omega), ← hj] at this
    exact this

/-- C16 (amended) at a concrete input: mining the first candidate of the
worked example. -/
theorem mine_linear_search_witness :
    ¬ leadingZeros (1 : Int).toNat exampleCandidate.Hash ∧
      exampleCandidate.mine toyLib 1 8 = .done exampleBlock1 ∧
      ∃ n : Nat, 1 ≤ n ∧ exampleBlock1.PoW = wrapInt (exampleCandidate.PoW + n) ∧
        exampleBlock1.Hash = exampleBlock1.calculateHash toyLib ∧
        (∀ k : Nat, 1 ≤ k → k < n →
          ¬ leadingZeros (1 : Int).toNat
            (Block.calculateHash toyLib
              { exampleCandidate with PoW := wrapInt (exampleCandidate.PoW + k) })) ∧
        exampleBlock1.Data = exampleCandidate.Data ∧
        exampleBlock1.PreviousHash = exampleCandidate.PreviousHash ∧
        exampleBlock1.Timestamp = exampleCandidate.Timestamp ∧
        (-(2 ^ 63) ≤ exampleCandidate.PoW → exampleCandidate.PoW + n ≤ 2 ^ 63 - 1 →
          exampleBlock1.PoW = exampleCandidate.PoW + n ∧
          exampleCandidate.PoW < exampleBlock1.PoW ∧
          ∀ k : Int, exampleCandidate.PoW < k → k < exampleBlock1.PoW →
            ¬ leadingZeros (1 : Int).toNat
              (Block.calculateHash toyLib { exampleCandidate with PoW := k })) :=
  ⟨not_leadingZeros_empty _ (by decide), exampleCandidate_mined,
    mine_linear_search toyLib 1 8 exampleCandidate exampleBlock1
      (not_leadingZeros_empty _ (by decide)) exampleCandidate_mined⟩


/-- C17. With difficulty 0 mining leaves a fresh candidate block as it is (hash
empty, counter 0), and `calculateHash` never returns the empty string; so on
every chain with a block and difficulty 0, for every sender, receiver and
amount, `AddBlock` appends the unmined candidate and returns the
"invalid block" error. -/
theorem AddBlock_difficulty_zero (L : Lib) (bc : Blockchain) (sender receiver : String)
    (amount : Float64) (now : Time) (fuel : Nat) (hne : bc.Chain ≠ [])
    (hd : bc.Difficulty = 0) :
    (newBlock (bc.Chain.getLast hne) sender receiver amount now).mine L 0 (fuel + 1)
        = .done (newBlock (bc.Chain.getLast hne) sender receiver amount now) ∧
      (∀ b : Block, b.calculateHash L ≠ "") ∧
      bc.AddBlock L sender receiver amount now (fuel + 1) =
        .done ({ bc with Chain := bc.Chain ++
          [newBlock (bc.Chain.getLast hne) sender receiver amount now] },
          some "invalid block") := by
  have hm : (newBlock (bc.Chain.getLast hne) sender receiver amount now).mine L 0 (fuel + 1)
      = .done (newBlock (bc.Chain.getLast hne) sender receiver amount now) := by
    rw [mine_succ L 0 (Repeat_zeros_ok _ 0 (le_refl 0) (Or.inl (by decide)))]
    rfl
  refine ⟨hm, calculateHash_ne_empty L, ?_⟩
  have hm' : (newBlock (bc.Chain.getLast hne) sender receiver amount now).mine L bc.Difficulty
      (fuel + 1) = .done (newBlock (bc.Chain.getLast hne) sender receiver amount now) := by
    rw [hd]; exact hm
  rw [AddBlock_of_mined L bc sender receiver amount now (fuel + 1) hne _ hm']
  have hneq : ¬ (Block.calculateHash L (newBlock (bc.Chain.getLast hne) sender receiver amount now)
      = (newBlock (bc.Chain.getLast hne) sender receiver amount now).Hash) :=
    calculateHash_ne_empty L _
  rw [if_neg hneq]

/-- C17 at a concrete input: a first append under difficulty 0. -/
theorem AddBlock_difficulty_zero_witness :
    ∃ hne : (CreateBlockchain 0 ⟨0, 5, 0⟩).Chain ≠ [],
      (CreateBlockchain 0 ⟨0, 5, 0⟩).Difficulty = 0 ∧
      (CreateBlockchain 0 ⟨0, 5, 0⟩).AddBlock toyLib "A" "B" ⟨10⟩ ⟨0, 7, 0⟩ (0 + 1) =
        .done ({ CreateBlockchain 0 ⟨0, 5, 0⟩ with Chain := (CreateBlockchain 0 ⟨0, 5, 0⟩).Chain ++
          [newBlock ((CreateBlockchain 0 ⟨0, 5, 0⟩).Chain.getLast hne) "A" "B" ⟨10⟩ ⟨0, 7, 0⟩] },
          some "invalid block") :=
  ⟨by simp [CreateBlockchain], rfl,
    (AddBlock_difficulty_zero toyLib (CreateBlockchain 0 ⟨0, 5, 0⟩) "A" "B" ⟨10⟩ ⟨0, 7, 0⟩ 0
      (by simp [CreateBlockchain]) rfl).2.2⟩

/-- C18. `AddBlock` is not atomic on failure: whenever it returns the
"invalid block" error, the rejected block is the last element of the block
list (the earlier blocks are kept before it) and `IsValid()` on the resulting
chain returns false. -/
theorem AddBlock_error_keeps_block (L : Lib) (bc bc' : Blockchain) (sender receiver : String)
    (amount : Float64) (now : Time) (fuel : Nat)
    (h : bc.AddBlock L sender receiver amount now fuel = .done (bc', some "invalid block")) :
    (∃ nb, bc'.Chain = bc.Chain ++ [nb] ∧ bc'.Chain.getLast? = some nb ∧
      bc'.IsValidBlock L ((bc'.Chain.length : Int) - 1) = .ok false) ∧
      bc'.IsValid L = .ok false := by
  obtain ⟨hne, mined, _, e, hv, _⟩ :=
    AddBlock_done L bc bc' sender receiver amount now fuel _ h
  have hv' : bc'.IsValidBlock L (bc.Chain.length : Int) = .ok false := by
    rw [hv]; simp
  have hl : 1 ≤ bc.Chain.length := List.length_pos.mpr hne
  have hlen : bc'.Chain.length = bc.Chain.length + 1 := by rw [e]; simp
  refine ⟨⟨mined, by rw [e], by rw [e]; simp, ?_⟩, ?_⟩
  · have el : ((bc'.Chain.length : Nat) : Int) - 1 = (bc.Chain.length : Int) := by
      rw [hlen]; push_cast; omega
    rw [el]; exact hv'
  · apply IsValid_false_of_block L bc' bc.Chain.length hl (by omega)
    rw [hv']; simp

/-- C18 at a concrete input: a first append under difficulty 0. -/
theorem AddBlock_error_keeps_block_witness :
    (CreateBlockchain 0 ⟨0, 5, 0⟩).AddBlock toyLib "A" "B" ⟨10⟩ ⟨0, 7, 0⟩ 1 =
        .done ({ CreateBlockchain 0 ⟨0, 5, 0⟩ with Chain := (CreateBlockchain 0 ⟨0, 5, 0⟩).Chain ++
          [newBlock (CreateBlockchain 0 ⟨0, 5, 0⟩).GenesisBlock "A" "B" ⟨10⟩ ⟨0, 7, 0⟩] },
          some "invalid block") ∧
      Blockchain.IsValid toyLib
        { CreateBlockchain 0 ⟨0, 5, 0⟩ with Chain := (CreateBlockchain 0 ⟨0, 5, 0⟩).Chain ++
          [newBlock (CreateBlockchain 0 ⟨0, 5, 0⟩).GenesisBlock "A" "B" ⟨10⟩ ⟨0, 7, 0⟩] } = .ok false :=
  ⟨by rfl,
    (AddBlock_error_keeps_block toyLib (CreateBlockchain 0 ⟨0, 5, 0⟩) _ "A" "B" ⟨10⟩ ⟨0, 7, 0⟩ 1
      (by rfl)).2⟩

/-- C19. Index safety: every chain reached from `CreateBlockchain` by calls of
`AddBlock` that returned has a block, so the read of the tail block by
`AddBlock` succeeds, every predecessor read made for `IsValid()` succeeds and
`IsValid()` returns; on a chain with an empty block list, such as the zero
value, `AddBlock` panics with an index out of range instead of returning. -/
theorem index_safety (L : Lib) (sender receiver : String) (amount : Float64) (now : Time)
    (fuel : Nat) :
    (∀ (d : Int) (t : Time) (errs : List (Option String)) (bc : Blockchain),
      Appended L (CreateBlockchain d t) errs bc →
        bc.Chain ≠ [] ∧
        (∃ tail, index bc.Chain ((bc.Chain.length : Int) - 1) = .ok tail) ∧
        (∀ i : Nat, 1 ≤ i → i < bc.Chain.length →
          (∃ blk, index bc.Chain (i : Int) = .ok blk) ∧
          (∃ prev, index bc.Chain ((i : Int) - 1) = .ok prev) ∧
          ∃ r, bc.IsValidBlock L (i : Int) = .ok r) ∧
        ∃ r, bc.IsValid L = .ok r) ∧
      (∀ bc : Blockchain, bc.Chain = [] →
        bc.AddBlock L sender receiver amount now fuel = .panic .indexOutOfRange) ∧
      zeroChain.AddBlock L sender receiver amount now fuel = .panic .indexOutOfRange := by
  have hempty : ∀ bc : Blockchain, bc.Chain = [] →
      bc.AddBlock L sender receiver amount now fuel = .panic .indexOutOfRange := by
    intro bc hbc
    simp [Blockchain.AddBlock, hbc, index_nil]
  refine ⟨?_, hempty, hempty zeroChain rfl⟩
  intro d t errs bc h
  have hlen := (Appended_fields L _ bc errs h).2.2.1
  have hpos : 1 ≤ bc.Chain.length := by
    rw [hlen]; simp [CreateBlockchain]
  have hne : bc.Chain ≠ [] := List.length_pos.mp hpos
  refine ⟨hne, ⟨_, index_last bc.Chain hne⟩, ?_, (IsValid_spec L bc).1⟩
  intro i h1 h2
  exact ⟨⟨_, index_natCast bc.Chain i h2⟩, ⟨_, index_pred bc.Chain i h1 h2⟩,
    ⟨_, IsValidBlock_inside L bc i h1 h2⟩⟩

/-- C20. The content of the first block is not covered by validation: changing
the data, timestamp, counter and `PreviousHash` of `Chain[0]`, and the separate
`GenesisBlock` field, changes neither the result of `IsValidBlock` at any index
nor the result of `IsValid()`; of `Chain[0]` only the stored hash matters. -/
theorem genesis_not_validated (L : Lib) (g gen gen' : Block) (rest : List Block) (d : Int)
    (data : Option (List (String × Value))) (t : Time) (pow : Int) (prev : String) :
    (∀ idx : Int,
      Blockchain.IsValidBlock L { GenesisBlock := gen, Chain := g :: rest, Difficulty := d } idx =
        Blockchain.IsValidBlock L
          { GenesisBlock := gen',
            Chain := { g with Data := data, Timestamp := t, PoW := pow, PreviousHash := prev }
              :: rest,
            Difficulty := d } idx) ∧
      Blockchain.IsValid L { GenesisBlock := gen, Chain := g :: rest, Difficulty := d } =
        Blockchain.IsValid L
          { GenesisBlock := gen',
            Chain := { g with Data := data, Timestamp := t, PoW := pow, PreviousHash := prev }
              :: rest,
            Difficulty := d } := by
  have key : ∀ i : Nat, 1 ≤ i → i < (g :: rest).length →
      Blockchain.IsValidBlock L { GenesisBlock := gen, Chain := g :: rest, Difficulty := d } (i : Int) =
        Blockchain.IsValidBlock L
          { GenesisBlock := gen',
            Chain := { g with Data := data, Timestamp := t, PoW := pow, PreviousHash := prev }
              :: rest,
            Difficulty := d } (i : Int) := by
    intro i h1 h2
    rw [IsValidBlock_inside L _ i h1 h2, IsValidBlock_inside L _ i h1 (by simpa using h2)]
    obtain ⟨j, rfl⟩ : ∃ j, i = j + 1 := ⟨i - 1, by omega⟩
    cases j with
    | zero => simp
    | succ k => simp
  refine ⟨?_, IsValid_congr L _ _ (by simp) key⟩
  intro idx
  by_cases hout : idx < 0 ∨ idx ≥ ((g :: rest).length : Int)
  · rw [IsValidBlock_outside L _ idx hout, IsValidBlock_outside L _ idx (by simpa using hout)]
  · by_cases h0 : idx = 0
    · subst h0
      rw [IsValidBlock_zero L _ (by simp), IsValidBlock_zero L _ (by simp)]
    · obtain ⟨i, rfl⟩ : ∃ i : Nat, idx = (i : Int) := ⟨idx.toNat, by omega⟩
      exact key i (by omega) (by omega)

end MiniBlockchain
